import Mathlib

set_option maxRecDepth 8000

/-!
Shallow embedding of the miniature markdown library `mmd.c`: the node/tree
store, the reference table with deferred resolution, the inline tokenizer,
the table lookahead and the block-level line state machine, together with
specification-side predicates and theorems checking the specification.

Nodes live in an arena (`List MNode`); node pointers are arena indices and a
null pointer is `Option.none`.  A C string buffer is a `List Char` terminated
by the character `'\x00'`; pointers into a buffer are indices, and reading
past the end of the list yields `'\x00'` (every buffer built here carries its
terminator, so such reads never matter).  Loops that advance a cursor are
written with an explicit fuel argument so that all definitions compute by
kernel reduction; every caller passes fuel that exceeds the number of
possible iterations.
-/

/-- Node types in the order declared by `mmd_type_t` in `mmd.h`. -/
inductive MType where
  | NONE
  | DOCUMENT
  | METADATA
  | BLOCK_QUOTE
  | ORDERED_LIST
  | UNORDERED_LIST
  | LIST_ITEM
  | TABLE
  | TABLE_HEADER
  | TABLE_BODY
  | TABLE_ROW
  | HEADING_1
  | HEADING_2
  | HEADING_3
  | HEADING_4
  | HEADING_5
  | HEADING_6
  | PARAGRAPH
  | CODE_BLOCK
  | THEMATIC_BREAK
  | TABLE_HEADER_CELL
  | TABLE_BODY_CELL_LEFT
  | TABLE_BODY_CELL_CENTER
  | TABLE_BODY_CELL_RIGHT
  | NORMAL_TEXT
  | EMPHASIZED_TEXT
  | STRONG_TEXT
  | STRUCK_TEXT
  | LINKED_TEXT
  | CODE_TEXT
  | IMAGE
  | HARD_BREAK
  | SOFT_BREAK
  | METADATA_TEXT
  deriving DecidableEq, Repr

/-- One markdown node (`struct _mmd_s`).  Pointer fields hold arena indices. -/
structure MNode where
  type : MType := .NONE
  whitespace : Bool := false
  text : Option String := none
  url : Option String := none
  parent : Option Nat := none
  first_child : Option Nat := none
  last_child : Option Nat := none
  prev_sibling : Option Nat := none
  next_sibling : Option Nat := none
  deriving DecidableEq, Repr

/-- One reference-table entry (`struct _mmd_ref_s`). -/
structure MRef where
  name : String
  url : Option String := none
  pending : List Nat := []
  deriving DecidableEq, Repr

/-- The per-parse document state (`struct _mmd_doc_s`): node arena + references. -/
structure MDoc where
  nodes : List MNode := []
  references : List MRef := []
  deriving DecidableEq, Repr

def defaultNode : MNode := {}

/-- Dereference an arena index (out of range gives the all-null node). -/
def nodeAt (a : List MNode) (i : Nat) : MNode := a.getD i defaultNode

/-- Update the node at an arena index in place. -/
def setNode (a : List MNode) (i : Nat) (f : MNode → MNode) : List MNode :=
  a.set i (f (nodeAt a i))

def refAt (rs : List MRef) (i : Nat) : MRef := rs.getD i { name := "" }

/-- `isspace` from `<ctype.h>` in the C locale. -/
def c_isspace (c : Char) : Bool :=
  c = ' ' || c = '\t' || c = '\n' || c = '\x0b' || c = '\x0c' || c = '\r'

/-- `isdigit` from `<ctype.h>`. -/
def c_isdigit (c : Char) : Bool := '0' ≤ c && c ≤ '9'

/-- ASCII lower-casing, as used by `strcasecmp`. -/
def asciiLower (c : Char) : Char :=
  if 'A' ≤ c ∧ c ≤ 'Z' then Char.ofNat (c.toNat + 32) else c

/-- `strcasecmp(a, b) == 0`. -/
def strCaseEq (a b : String) : Bool :=
  a.data.map asciiLower = b.data.map asciiLower

/-- `mmd_add`: allocate a node, link it as `parent`'s new last child, copy the
    text/url strings.  Returns the updated arena and the new node's index. -/
def mmd_add (a : List MNode) (parent : Option Nat) (ty : MType) (ws : Bool)
    (text : Option String) (url : Option String) : List MNode × Nat :=
  let nid := a.length
  let base : MNode := { type := ty, whitespace := ws, text := text, url := url }
  match parent with
  | none => (a ++ [base], nid)
  | some p =>
    match (nodeAt a p).last_child with
    | some lc =>
      let a1 := setNode a lc (fun n => { n with next_sibling := some nid })
      let a2 := setNode a1 p (fun n => { n with last_child := some nid })
      (a2 ++ [{ base with parent := some p, prev_sibling := some lc }], nid)
    | none =>
      let a2 := setNode a p (fun n => { n with first_child := some nid, last_child := some nid })
      (a2 ++ [{ base with parent := some p }], nid)

/-- `mmd_add` lifted to a document. -/
def mmd_addD (d : MDoc) (parent : Option Nat) (ty : MType) (ws : Bool)
    (text : Option String) (url : Option String) : MDoc × Nat :=
  let (a, nid) := mmd_add d.nodes parent ty ws text url
  ({ d with nodes := a }, nid)

/-- `mmd_remove`: unlink a node from its parent's child chain and null its
    parent and sibling pointers. -/
def mmd_remove (a : List MNode) (node : Nat) : List MNode :=
  let n := nodeAt a node
  match n.parent with
  | none => a
  | some p =>
    let a1 :=
      match n.prev_sibling with
      | some ps => setNode a ps (fun x => { x with next_sibling := n.next_sibling })
      | none => setNode a p (fun x => { x with first_child := n.next_sibling })
    let a2 :=
      match n.next_sibling with
      | some ns => setNode a1 ns (fun x => { x with prev_sibling := n.prev_sibling })
      | none => setNode a1 p (fun x => { x with last_child := n.prev_sibling })
    setNode a2 node (fun x => { x with parent := none, prev_sibling := none, next_sibling := none })

/-- `mmdGetFirstChild` (total; null in, null out). -/
def mmdGetFirstChild (a : List MNode) (node : Option Nat) : Option Nat :=
  match node with
  | none => none
  | some i => (nodeAt a i).first_child

/-- `mmdGetNextSibling`. -/
def mmdGetNextSibling (a : List MNode) (node : Option Nat) : Option Nat :=
  match node with
  | none => none
  | some i => (nodeAt a i).next_sibling

/-- `mmdGetParent`. -/
def mmdGetParent (a : List MNode) (node : Option Nat) : Option Nat :=
  match node with
  | none => none
  | some i => (nodeAt a i).parent

/-- `mmd_ref_find`: first entry whose name matches case-insensitively. -/
def mmd_ref_find (d : MDoc) (name : String) : Option Nat :=
  d.references.findIdx? (fun r => strCaseEq name r.name)

/-- The tail of `mmd_ref_add` (after the early-return branch): if a link node
    was supplied, either resolve it at once from the entry's URL or append it
    to the entry's pending list. -/
def mmd_ref_attach (d : MDoc) (node : Option Nat) (ri : Nat) : MDoc :=
  match node with
  | none => d
  | some n =>
    let r := refAt d.references ri
    match r.url with
    | some u => { d with nodes := setNode d.nodes n (fun x => { x with url := some u }) }
    | none => { d with references := d.references.set ri { r with pending := r.pending ++ [n] } }

/-- `mmd_ref_add`: add or update a reference.  When a URL arrives for an entry
    that has none, the entry's URL is set, every pending node is patched with
    it and the pending list is freed. -/
def mmd_ref_add (d : MDoc) (node : Option Nat) (name : String) (url : Option String) : MDoc :=
  match mmd_ref_find d name with
  | some ri =>
    let r := refAt d.references ri
    match r.url, url with
    | none, some u =>
      let ns0 :=
        match node with
        | some n => setNode d.nodes n (fun x => { x with url := some u })
        | none => d.nodes
      let ns1 := r.pending.foldl (fun a n => setNode a n (fun x => { x with url := some u })) ns0
      { nodes := ns1,
        references := d.references.set ri { r with url := some u, pending := [] } }
    | _, _ => mmd_ref_attach d node ri
  | none =>
    let ri := d.references.length
    let d1 : MDoc := { d with references := d.references ++ [{ name := name, url := url, pending := [] }] }
    mmd_ref_attach d1 node ri

/-- End-of-parse pass over one reference (`mmdLoadFile`, reference cleanup):
    each still-pending node receives the reference name as its URL. -/
def mmd_sweep_ref (a : List MNode) (r : MRef) : List MNode :=
  if r.pending ≠ [] then
    r.pending.foldl (fun ns n => setNode ns n (fun x => { x with url := some r.name })) a
  else a

/-- End-of-parse reference cleanup over the whole table. -/
def mmd_final_sweep (d : MDoc) : List MNode :=
  d.references.foldl mmd_sweep_ref d.nodes

/-- The terminating NUL byte. -/
def nulc : Char := '\x00'

/-- The double-quote character. -/
def dquoteC : Char := Char.ofNat 34

/-- The backtick character. -/
def backtickC : Char := Char.ofNat 96

/-- Read a byte of a buffer; past the end reads the terminator. -/
def bufget (buf : List Char) (i : Nat) : Char := buf.getD i nulc

/-- A line as handed out by `fgets`: the characters plus the terminator. -/
def bufOf (line : List Char) : List Char := line ++ [nulc]

/-- The C string starting at an index (up to the first NUL). -/
def cstr (buf : List Char) (i : Nat) : String :=
  String.mk ((buf.drop i).takeWhile (fun c => c ≠ nulc))

/-- `strlen` of the string starting at an index. -/
def strlenFrom (buf : List Char) (i : Nat) : Nat :=
  ((buf.drop i).takeWhile (fun c => c ≠ nulc)).length

/-- `while (isspace(*lineptr & 255)) lineptr ++;` -/
def skipWsAux : Nat → List Char → Nat → Nat
  | 0, _, i => i
  | fuel+1, buf, i => if c_isspace (bufget buf i) then skipWsAux fuel buf (i+1) else i

def skipWs (buf : List Char) (i : Nat) : Nat := skipWsAux (buf.length + 1) buf i

/-- `while (*p == ch) p ++;` -/
def skipCharAux : Nat → List Char → Nat → Char → Nat
  | 0, _, i, _ => i
  | fuel+1, buf, i, ch => if bufget buf i = ch then skipCharAux fuel buf (i+1) ch else i

def skipChar (buf : List Char) (i : Nat) (ch : Char) : Nat := skipCharAux (buf.length + 1) buf i ch

/-- `while (isdigit(*p & 255)) p ++;` -/
def skipDigitsAux : Nat → List Char → Nat → Nat
  | 0, _, i => i
  | fuel+1, buf, i => if c_isdigit (bufget buf i) then skipDigitsAux fuel buf (i+1) else i

def skipDigits (buf : List Char) (i : Nat) : Nat := skipDigitsAux (buf.length + 1) buf i

/-- `while (*p && !isspace(*p & 255)) p ++;` -/
def skipNonSpaceAux : Nat → List Char → Nat → Nat
  | 0, _, i => i
  | fuel+1, buf, i =>
    if bufget buf i ≠ nulc ∧ ¬ c_isspace (bufget buf i) then skipNonSpaceAux fuel buf (i+1) else i

def skipNonSpace (buf : List Char) (i : Nat) : Nat := skipNonSpaceAux (buf.length + 1) buf i

/-- `strchr(p, c)` for a non-NUL `c`, returning an index. -/
def strchrAux : Nat → List Char → Nat → Char → Option Nat
  | 0, _, _, _ => none
  | fuel+1, buf, i, c =>
    if bufget buf i = nulc then none
    else if bufget buf i = c then some i
    else strchrAux fuel buf (i+1) c

def strchrFrom (buf : List Char) (i : Nat) (c : Char) : Option Nat :=
  strchrAux (buf.length + 1) buf i c

/-- `strncmp(p, "ccc", 3) == 0`: the three bytes at `i` all equal `c`. -/
def strncmp3 (buf : List Char) (i : Nat) (c : Char) : Prop :=
  bufget buf i = c ∧ bufget buf (i+1) = c ∧ bufget buf (i+2) = c

instance (buf : List Char) (i : Nat) (c : Char) : Decidable (strncmp3 buf i c) := by
  unfold strncmp3; infer_instance

/-- The run consumed by the thematic-break test:
    `while (*lineptr && (*lineptr == ch || isspace(*lineptr & 255))) lineptr ++;` -/
def themAux : Nat → List Char → Nat → Char → Nat
  | 0, _, i, _ => i
  | fuel+1, buf, i, ch =>
    if bufget buf i ≠ nulc ∧ (bufget buf i = ch ∨ c_isspace (bufget buf i)) then
      themAux fuel buf (i+1) ch
    else i

def themSkip (buf : List Char) (i : Nat) (ch : Char) : Nat := themAux (buf.length + 1) buf i ch

/-- Scan of the bracketed text in `mmd_parse_link`: stop at `]` (outside
    quotes) or at NUL; a `"` toggles quote mode. -/
def linkTextScanAux : Nat → List Char → Bool → Nat → Nat
  | 0, _, _, i => i
  | fuel+1, buf, q, i =>
    let c := bufget buf i
    if c = nulc then i
    else if q then
      if c = dquoteC then linkTextScanAux fuel buf false (i+1) else linkTextScanAux fuel buf true (i+1)
    else if c = ']' then i
    else if c = dquoteC then linkTextScanAux fuel buf true (i+1)
    else linkTextScanAux fuel buf false (i+1)

def linkTextScan (buf : List Char) (i : Nat) : Nat :=
  linkTextScanAux (buf.length + 1) buf false i

/-- Scan of a `(url)` or `[name]` part in `mmd_parse_link`: stop at the
    delimiter (outside quotes) or at NUL; whitespace outside quotes is
    overwritten with NUL; a `"` toggles quote mode.  Returns the mutated
    buffer, the stop index and whether the stop happened inside quotes
    (the early-return case of the C code). -/
def linkDelimScanAux : Nat → List Char → Char → Bool → Nat → List Char × Nat × Bool
  | 0, buf, _, q, i => (buf, i, q)
  | fuel+1, buf, delim, q, i =>
    let c := bufget buf i
    if c = nulc then (buf, i, q)
    else if q then
      if c = dquoteC then linkDelimScanAux fuel buf delim false (i+1)
      else linkDelimScanAux fuel buf delim true (i+1)
    else if c = delim then (buf, i, false)
    else if c_isspace c then linkDelimScanAux fuel (buf.set i nulc) delim false (i+1)
    else if c = dquoteC then linkDelimScanAux fuel buf delim true (i+1)
    else linkDelimScanAux fuel buf delim false (i+1)

def linkDelimScan (buf : List Char) (delim : Char) (i : Nat) : List Char × Nat × Bool :=
  linkDelimScanAux (buf.length + 1) buf delim false i

/-- Result of `mmd_parse_link`: updated document, mutated buffer, the returned
    line pointer and the `text`/`url`/`refname` out-pointers (buffer indices). -/
structure LinkResult where
  doc : MDoc
  buf : List Char
  ret : Nat
  text : Option Nat
  url : Option Nat
  refname : Option Nat
  deriving Repr

/-- `mmd_parse_link`: parse `[text](url)`, `[text][name]`, `[text]` or a
    reference definition `[name]: url` starting at the `[`. -/
def mmd_parse_link (d : MDoc) (buf : List Char) (lineptr : Nat) : LinkResult :=
  let i0 := lineptr + 1
  let j := linkTextScan buf i0
  if bufget buf j = nulc then
    { doc := d, buf := buf, ret := j, text := some i0, url := none, refname := none }
  else
    let buf1 := buf.set j nulc
    let k := skipWs buf1 (j+1)
    if bufget buf1 k = '(' then
      let (buf2, e, early) := linkDelimScan buf1 ')' (k+1)
      if early then
        { doc := d, buf := buf2, ret := e, text := some i0, url := some (k+1), refname := none }
      else
        { doc := d, buf := buf2.set e nulc, ret := e+1, text := some i0, url := some (k+1),
          refname := none }
    else if bufget buf1 k = '[' then
      let (buf2, e, early) := linkDelimScan buf1 ']' (k+1)
      if early then
        { doc := d, buf := buf2, ret := e, text := some i0, url := none, refname := some (k+1) }
      else
        let buf3 := buf2.set e nulc
        let rn := if bufget buf3 (k+1) = nulc then i0 else k+1
        { doc := d, buf := buf3, ret := e+1, text := some i0, url := none, refname := some rn }
    else if bufget buf1 k = ':' then
      let m := skipWs buf1 (k+1)
      let e := skipNonSpace buf1 m
      let buf2 := buf1.set e nulc
      let d1 := mmd_ref_add d none (cstr buf2 i0) (some (cstr buf2 m))
      { doc := d1, buf := buf2, ret := e, text := none, url := none, refname := none }
    else
      { doc := d, buf := buf1, ret := k, text := some i0, url := none, refname := none }

/-- `memmove(lineptr, lineptr + 1, strlen(lineptr))`: shift the string tail
    (including its terminator) one byte to the left. -/
def memmove1 (buf : List Char) (i : Nat) : List Char :=
  let L := strlenFrom buf i
  buf.take i ++ ((buf.drop (i+1)).take L) ++ buf.drop (i + L)

/-- One step of `mmd_parse_inline` either returns from the function or
    continues the scan loop with updated state. -/
inductive IRes where
  | ret (doc : MDoc) (buf : List Char)
  | cont (doc : MDoc) (buf : List Char) (i : Nat) (text : Option Nat) (ty : MType) (ws : Bool)
  deriving Repr

/-- The body of the scan loop of `mmd_parse_inline` for one position `i` with
    `*lineptr != 0`: current plain-run start `text`, open-span type `ty` and
    pending-whitespace flag `ws`. -/
def mmd_inline_step (parent : Nat) (d : MDoc) (buf : List Char) (i : Nat)
    (text : Option Nat) (ty : MType) (ws : Bool) : IRes :=
  let c := bufget buf i
  if c_isspace c ∧ ty ≠ .CODE_TEXT then
    let (d1, buf1) :=
      match text with
      | some t =>
        let b := buf.set i nulc
        ((mmd_addD d (some parent) ty ws (some (cstr b t)) none).1, b)
      | none => (d, buf)
    let d2 :=
      if c_isspace (bufget buf1 (i+1)) ∧ bufget buf1 (i+2) = nulc then
        (mmd_addD d1 (some parent) .HARD_BREAK false none none).1
      else d1
    .cont d2 buf1 (i+1) none ty true
  else if c = '!' ∧ bufget buf (i+1) = '[' ∧ ty ≠ .CODE_TEXT then
    let (d1, ws1) :=
      match text with
      | some t => ((mmd_addD d (some parent) ty ws (some (cstr buf t)) none).1, false)
      | none => (d, ws)
    let lr := mmd_parse_link d1 buf (i+1)
    let d2 :=
      if lr.url.isSome ∨ lr.refname.isSome then
        let (d2a, nid) := mmd_addD lr.doc (some parent) .IMAGE ws1
          (lr.text.map (cstr lr.buf)) (lr.url.map (cstr lr.buf))
        match lr.refname with
        | some rn => mmd_ref_add d2a (some nid) (cstr lr.buf rn) none
        | none => d2a
      else lr.doc
    if bufget lr.buf lr.ret = nulc then .ret d2 lr.buf
    else .cont d2 lr.buf lr.ret none ty false
  else if c = '[' ∧ ty ≠ .CODE_TEXT then
    let (d1, ws1) :=
      match text with
      | some t => ((mmd_addD d (some parent) ty ws (some (cstr buf t)) none).1, false)
      | none => (d, ws)
    let lr := mmd_parse_link d1 buf i
    let (d2, buf2, node) :=
      match lr.text with
      | some t =>
        if bufget lr.buf t = backtickC then
          let e := t + strlenFrom lr.buf t - 1
          let t1 := t + 1
          let bufx := if t1 < e ∧ bufget lr.buf e = backtickC then lr.buf.set e nulc else lr.buf
          let (dx, nid) := mmd_addD lr.doc (some parent) .CODE_TEXT ws1
            (some (cstr bufx t1)) (lr.url.map (cstr bufx))
          (dx, bufx, some nid)
        else
          let (dx, nid) := mmd_addD lr.doc (some parent) .LINKED_TEXT ws1
            (some (cstr lr.buf t)) (lr.url.map (cstr lr.buf))
          (dx, lr.buf, some nid)
      | none => (lr.doc, lr.buf, none)
    let d3 :=
      match lr.refname, node with
      | some rn, some nid => mmd_ref_add d2 (some nid) (cstr buf2 rn) none
      | _, _ => d2
    if bufget buf2 lr.ret = nulc then .ret d3 buf2
    else .cont d3 buf2 lr.ret none ty false
  else if c = '<' ∧ ty ≠ .CODE_TEXT ∧ (strchrFrom buf (i+1) '>').isSome then
    let (d1, ws1) :=
      match text with
      | some t => ((mmd_addD d (some parent) ty ws (some (cstr buf t)) none).1, false)
      | none => (d, ws)
    let g := (strchrFrom buf (i+1) '>').getD 0
    let buf1 := buf.set g nulc
    let d2 := (mmd_addD d1 (some parent) .LINKED_TEXT ws1
      (some (cstr buf1 (i+1))) (some (cstr buf1 (i+1)))).1
    .cont d2 buf1 (g+1) none ty false
  else if (c = '*' ∨ c = '_') ∧ ty ≠ .CODE_TEXT then
    let (d1, buf1, ws1) :=
      match text with
      | some t =>
        let b := buf.set i nulc
        let dx := (mmd_addD d (some parent) ty ws (some (cstr b t)) none).1
        (dx, b.set i c, false)
      | none => (d, buf, ws)
    if ty = .NORMAL_TEXT then
      if bufget buf1 (i+1) = c ∧ ¬ c_isspace (bufget buf1 (i+2)) then
        .cont d1 buf1 (i+2) (some (i+2)) .STRONG_TEXT ws1
      else if ¬ c_isspace (bufget buf1 (i+1)) then
        .cont d1 buf1 (i+1) (some (i+1)) .EMPHASIZED_TEXT ws1
      else
        .cont d1 buf1 (i+1) (some (i+1)) .NORMAL_TEXT ws1
    else
      if bufget buf1 (i+1) = c then .cont d1 buf1 (i+2) none .NORMAL_TEXT ws1
      else .cont d1 buf1 (i+1) none .NORMAL_TEXT ws1
  else if c = '~' ∧ bufget buf (i+1) = '~' ∧ ty ≠ .CODE_TEXT then
    let (d1, buf1, ws1) :=
      match text with
      | some t =>
        let b := buf.set i nulc
        let dx := (mmd_addD d (some parent) ty ws (some (cstr b t)) none).1
        (dx, b.set i '~', false)
      | none => (d, buf, ws)
    if ¬ c_isspace (bufget buf1 (i+2)) ∧ ty = .NORMAL_TEXT then
      .cont d1 buf1 (i+1) (some (i+2)) .STRUCK_TEXT ws1
    else
      .cont d1 buf1 (i+2) none .NORMAL_TEXT ws1
  else if c = backtickC then
    let (d1, buf1, ws1) :=
      match text with
      | some t =>
        let b := buf.set i nulc
        ((mmd_addD d (some parent) ty ws (some (cstr b t)) none).1, b, false)
      | none => (d, buf, ws)
    if ty = .CODE_TEXT then .cont d1 buf1 (i+1) none .NORMAL_TEXT ws1
    else .cont d1 buf1 (i+1) (some (i+1)) .CODE_TEXT ws1
  else
    match text with
    | none =>
      if c = '\\' ∧ bufget buf (i+1) ≠ nulc then .cont d buf (i+2) (some (i+1)) ty ws
      else .cont d buf (i+1) (some i) ty ws
    | some _ =>
      if c = '\\' ∧ bufget buf (i+1) ≠ nulc then .cont d (memmove1 buf i) (i+1) text ty ws
      else .cont d buf (i+1) text ty ws

/-- The scan loop of `mmd_parse_inline`, with the final flush at line end. -/
def mmd_inline_loop (parent : Nat) :
    Nat → MDoc → List Char → Nat → Option Nat → MType → Bool → MDoc × List Char
  | 0, d, buf, _, _, _, _ => (d, buf)
  | fuel+1, d, buf, i, text, ty, ws =>
    if bufget buf i = nulc then
      match text with
      | some t => ((mmd_addD d (some parent) ty ws (some (cstr buf t)) none).1, buf)
      | none => (d, buf)
    else
      match mmd_inline_step parent d buf i text ty ws with
      | .ret d1 b1 => (d1, b1)
      | .cont d1 b1 i1 t1 ty1 w1 => mmd_inline_loop parent fuel d1 b1 i1 t1 ty1 w1

/-- `mmd_parse_inline`: tokenize one line under the given parent block. -/
def mmd_parse_inline (d : MDoc) (parent : Nat) (buf : List Char) (start : Nat) :
    MDoc × List Char :=
  let ws := (nodeAt d.nodes parent).last_child.isSome
  mmd_inline_loop parent (buf.length + 2) d buf start none .NORMAL_TEXT ws

/-- The type of the node at an arena index of a document. -/
def ntype (d : MDoc) (i : Nat) : MType := (nodeAt d.nodes i).type

/-- `p && p->type == ty` for an optional node pointer. -/
def optTypeIs (d : MDoc) (o : Option Nat) (ty : MType) : Bool :=
  match o with
  | some b => decide (ntype d b = ty)
  | none => false

/-- Scan of `mmd_is_table`: only separator characters, a `>` allowed at the
    very start of the line. -/
def is_table_scanAux : Nat → List Char → Nat → Bool
  | 0, _, _ => false
  | fuel+1, buf, p =>
    if bufget buf p = nulc then true
    else if p = 0 ∧ bufget buf p = '>' then is_table_scanAux fuel buf (p+1)
    else if bufget buf p = ' ' ∨ bufget buf p = '\t' ∨ bufget buf p = '\n' ∨
        bufget buf p = '\r' ∨ bufget buf p = ':' ∨ bufget buf p = '-' ∨ bufget buf p = '|' then
      is_table_scanAux fuel buf (p+1)
    else false

/-- `mmd_is_table`: record the position, read one line, test it, and seek back
    to the recorded position.  The input source is the list of lines together
    with the read position; the returned position is the file position after
    the call. -/
def mmd_is_table (lines : List (List Char)) (pos : Nat) : Bool × Nat :=
  match lines.get? pos with
  | none => (false, pos)
  | some l => (is_table_scanAux ((bufOf l).length + 1) (bufOf l) 0, pos)

/-- `MMD_TYPE_HEADING_1 + (temp - lineptr - 1)` for a heading level in 1..6. -/
def headingOfLevel : Nat → MType
  | 1 => .HEADING_1
  | 2 => .HEADING_2
  | 3 => .HEADING_3
  | 4 => .HEADING_4
  | 5 => .HEADING_5
  | _ => .HEADING_6

/-- `for (temp = lineptr + strlen(lineptr) - 1; temp > lineptr && *temp == '#'; temp --) *temp = '\0';` -/
def stripHashAux : Nat → List Char → Nat → Nat → List Char
  | 0, buf, _, _ => buf
  | fuel+1, buf, s, e =>
    if s < e ∧ bufget buf e = '#' then stripHashAux fuel (buf.set e nulc) s (e-1) else buf

/-- `for (node = current; node != doc.root && node->type != MMD_TYPE_BLOCK_QUOTE; node = node->parent);` -/
def findQuoteAncAux (d : MDoc) : Nat → Nat → Nat
  | 0, i => i
  | fuel+1, i =>
    if i = 0 ∨ (nodeAt d.nodes i).type = .BLOCK_QUOTE then i
    else findQuoteAncAux d fuel ((nodeAt d.nodes i).parent.getD 0)

/-- The metadata reading loop of `mmdLoadFile`: store each line verbatim (with
    one trailing newline stripped) until a `---`/`...` line or end of file. -/
def mmd_meta_loop (blockId : Nat) : Nat → MDoc → List (List Char) → Nat → MDoc × Nat
  | 0, d, _, pos => (d, pos)
  | fuel+1, d, lines, pos =>
    match lines.get? pos with
    | none => (d, pos)
    | some line =>
      let buf := bufOf line
      let lp := skipWs buf 0
      if strncmp3 buf 0 '-' ∨ strncmp3 buf 0 '.' then (d, pos+1)
      else
        let sl := strlenFrom buf lp
        let buf1 := if 2 ≤ sl ∧ bufget buf (lp + sl - 1) = '\n' then buf.set (lp + sl - 1) nulc else buf
        let d1 := (mmd_addD d (some blockId) .METADATA_TEXT false (some (cstr buf1 lp)) none).1
        mmd_meta_loop blockId fuel d1 lines (pos+1)

/-- `while ((*end == '\n' || *end == 'r') && end > lineptr) end --;` -/
def tbEndAux : Nat → List Char → Nat → Nat → Nat
  | 0, _, _, e => e
  | fuel+1, buf, s, e =>
    if (bufget buf e = '\n' ∨ bufget buf e = 'r') ∧ s < e then tbEndAux fuel buf s (e-1) else e

/-- `for (end = start + strlen(start) - 1; end > start && isspace(*end & 255); end --);` -/
def sepEndAux : Nat → List Char → Nat → Nat → Nat
  | 0, _, _, e => e
  | fuel+1, buf, s, e => if s < e ∧ c_isspace (bufget buf e) then sepEndAux fuel buf s (e-1) else e

/-- `while (col < num_columns) { mmd_add(row, columns[col], 0, NULL, NULL); col ++; }` -/
def padCellsAux (row : Nat) (cols : List MType) : Nat → MDoc → Nat → Nat → MDoc
  | 0, d, _, _ => d
  | fuel+1, d, col, ncols =>
    if col < ncols then
      let (d1, _) := mmd_addD d (some row) (cols.getD col .TABLE_BODY_CELL_LEFT) false none none
      padCellsAux row cols fuel d1 (col+1) ncols
    else d

/-- The per-cell loop of the table branch of `mmdLoadFile`: split the line at
    `|` bytes; with an open row add a cell and tokenize the cell text, on a
    separator row record the column alignment from the colon placement. -/
def mmd_table_cellsAux (row : Option Nat) (isHeader : Bool) :
    Nat → MDoc → List Char → List MType → Option Nat → Nat →
    MDoc × List Char × List MType × Nat
  | 0, d, buf, cols, _, col => (d, buf, cols, col)
  | fuel+1, d, buf, cols, lp, col =>
    match lp with
    | none => (d, buf, cols, col)
    | some l =>
      if bufget buf l = nulc ∨ ¬ col < 256 then (d, buf, cols, col)
      else
        let start := l
        let (buf1, lp1) :=
          match strchrFrom buf (l+1) '|' with
          | some f => (buf.set f nulc, some (f+1))
          | none => (buf, none)
        match row with
        | some r =>
          let cellTy := if isHeader then MType.TABLE_HEADER_CELL else cols.getD col .TABLE_BODY_CELL_LEFT
          let (d1, cid) := mmd_addD d (some r) cellTy false none none
          let (d2, buf2) := mmd_parse_inline d1 cid buf1 start
          mmd_table_cellsAux row isHeader fuel d2 buf2 cols lp1 (col+1)
        | none =>
          let s1 := skipWs buf1 start
          let sl := strlenFrom buf1 s1
          let e := sepEndAux (s1 + sl + 1) buf1 s1 (s1 + sl - 1)
          let cols1 :=
            if bufget buf1 s1 = ':' ∧ bufget buf1 e = ':' then cols.set col .TABLE_BODY_CELL_CENTER
            else if bufget buf1 e = ':' then cols.set col .TABLE_BODY_CELL_RIGHT
            else cols
          mmd_table_cellsAux row isHeader fuel d buf1 cols1 lp1 (col+1)

/-- The parser state carried across lines by `mmdLoadFile`. -/
structure LoadState where
  doc : MDoc
  current : Nat
  block : Option Nat
  blank_code : Bool
  columns : List MType
  num_columns : Nat
  rows : Int
  deriving Repr

/-- The table branch of `mmdLoadFile` (a line containing `|` accepted as a
    table row): open the table and header on first sight, pick header, body or
    separator mode from the row counter, split cells and rebalance columns. -/
def mmd_table_branch (st : LoadState) (buf : List Char) (lp : Nat) : LoadState :=
  let (d0, cur0, block0, cols0, ncols0, rows0) :=
    if ntype st.doc st.current ≠ .TABLE then
      let cur1 :=
        if st.current ≠ 0 ∧ ntype st.doc st.current ≠ .BLOCK_QUOTE then
          (nodeAt st.doc.nodes st.current).parent.getD 0
        else st.current
      let (d1, t) := mmd_addD st.doc (some cur1) .TABLE false none none
      let (d2, h) := mmd_addD d1 (some t) .TABLE_HEADER false none none
      (d2, t, some h, List.replicate 256 MType.TABLE_BODY_CELL_LEFT, 0, (-1 : Int))
    else if 0 < st.rows then
      if st.rows = 1 then
        let (d1, b) := mmd_addD st.doc (some st.current) .TABLE_BODY false none none
        (d1, st.current, some b, st.columns, st.num_columns, st.rows)
      else (st.doc, st.current, st.block, st.columns, st.num_columns, st.rows)
    else (st.doc, st.current, none, st.columns, st.num_columns, st.rows)
  let (d1, row) :=
    match block0 with
    | some b =>
      let (dx, r) := mmd_addD d0 (some b) .TABLE_ROW false none none
      (dx, some r)
    | none => (d0, none)
  let lp1 := if bufget buf lp = '|' then lp + 1 else lp
  let sl := strlenFrom buf lp1
  let buf1 :=
    if 2 ≤ sl then
      let e := tbEndAux (sl + 1) buf lp1 (lp1 + sl - 1)
      if lp1 < e ∧ bufget buf e = '|' then buf.set e nulc else buf
    else buf
  let isHeader := optTypeIs d1 block0 .TABLE_HEADER
  let (d2, _buf2, cols2, col) := mmd_table_cellsAux row isHeader 257 d1 buf1 cols0 (some lp1) 0
  let (ncols2, d3) :=
    if ncols0 < col then (col, d2)
    else
      match block0, row with
      | some b, some r =>
        if ntype d2 b ≠ .TABLE_HEADER then (ncols0, padCellsAux r cols2 (ncols0 + 1) d2 col ncols0)
        else (ncols0, d2)
      | _, _ => (ncols0, d2)
  { st with
    doc := d3
    current := cur0
    block := block0
    columns := cols2
    num_columns := ncols2
    rows := rows0 + 1 }

/-- The tail of the per-line chain of `mmdLoadFile`: create a block of the
    derived type when needed and hand the line to the inline tokenizer. -/
def mmd_line_finish (st : LoadState) (buf : List Char) (lp : Nat) (ty : MType) : LoadState :=
  if ¬ optTypeIs st.doc st.block ty then
    let cur1 := if ntype st.doc st.current = .CODE_BLOCK then 0 else st.current
    let (d1, b) := mmd_addD st.doc (some cur1) ty false none none
    let (d2, _) := mmd_parse_inline d1 b buf lp
    { st with doc := d2, current := cur1, block := some b }
  else
    let b := st.block.getD 0
    let (d2, _) := mmd_parse_inline st.doc b buf lp
    { st with doc := d2 }

/-- The classification chain of `mmdLoadFile` after the table section:
    loose-list `+` marker, setext heading, bulleted list, ordered list,
    `#` heading, and the paragraph/continuation default. -/
def mmd_line_classify (st : LoadState) (buf : List Char) (lp : Nat) : LoadState :=
  if cstr buf lp = "+" then
    match st.block with
    | some b =>
      if ntype st.doc b = .LIST_ITEM then
        let (d1, nb) := mmd_addD st.doc (some b) .PARAGRAPH false none none
        { st with doc := d1, block := some nb }
      else if ntype st.doc ((nodeAt st.doc.nodes b).parent.getD 0) = .LIST_ITEM then
        let (d1, nb) := mmd_addD st.doc (some ((nodeAt st.doc.nodes b).parent.getD 0)) .PARAGRAPH false none none
        { st with doc := d1, block := some nb }
      else { st with block := none }
    | none => st
  else if optTypeIs st.doc st.block .PARAGRAPH = true ∧
      (strncmp3 buf lp '-' ∨ strncmp3 buf lp '=') then
    let ch := bufget buf lp
    let r1 := skipChar buf (lp+3) ch
    let r2 := skipWs buf r1
    if bufget buf r2 = nulc then
      let b := st.block.getD 0
      let ns1 := setNode st.doc.nodes b
        (fun n => { n with type := if ch = '=' then .HEADING_1 else .HEADING_2 })
      { st with doc := { st.doc with nodes := ns1 }, block := none }
    else mmd_line_finish st buf r2 .PARAGRAPH
  else if (bufget buf lp = '-' ∨ bufget buf lp = '+' ∨ bufget buf lp = '*') ∧
      c_isspace (bufget buf (lp+1)) then
    let lp1 := skipWs buf (lp+2)
    let st1 :=
      if st.current = 0 ∧ optTypeIs st.doc (nodeAt st.doc.nodes 0).last_child .UNORDERED_LIST = true then
        { st with current := (nodeAt st.doc.nodes 0).last_child.getD 0 }
      else if ntype st.doc st.current ≠ .UNORDERED_LIST then
        let parentFor := if ntype st.doc st.current = .BLOCK_QUOTE then st.current else 0
        let (d1, u) := mmd_addD st.doc (some parentFor) .UNORDERED_LIST false none none
        { st with doc := d1, current := u }
      else st
    mmd_line_finish { st1 with block := none } buf lp1 .LIST_ITEM
  else if c_isdigit (bufget buf lp) then
    let t := skipDigits buf (lp+1)
    if bufget buf t = '.' ∧ c_isspace (bufget buf (t+1)) then
      let lp1 := skipWs buf (t+2)
      let st1 :=
        if st.current = 0 ∧ optTypeIs st.doc (nodeAt st.doc.nodes 0).last_child .ORDERED_LIST = true then
          { st with current := (nodeAt st.doc.nodes 0).last_child.getD 0 }
        else if ntype st.doc st.current ≠ .ORDERED_LIST then
          let (d1, u) := mmd_addD st.doc (some st.current) .ORDERED_LIST false none none
          { st with doc := d1, current := u }
        else st
      mmd_line_finish { st1 with block := none } buf lp1 .LIST_ITEM
    else
      mmd_line_finish st buf lp (match st.block with | some b => ntype st.doc b | none => .PARAGRAPH)
  else if bufget buf lp = '#' then
    let t := skipChar buf (lp+1) '#'
    let (st1, buf1, lp1, ty) :=
      if t - lp ≤ 6 then
        let lpA := skipWs buf t
        let slA := strlenFrom buf lpA
        let bufA := stripHashAux (slA + 1) buf lpA (lpA + slA - 1)
        ({ st with block := none }, bufA, lpA, headingOfLevel (t - lp))
      else (st, buf, lp, MType.PARAGRAPH)
    let st2 := if ntype st1.doc st1.current ≠ .BLOCK_QUOTE then { st1 with current := 0 } else st1
    mmd_line_finish st2 buf1 lp1 ty
  else
    match st.block with
    | none =>
      let st1 := if lp = 0 then { st with current := 0 } else st
      mmd_line_finish st1 buf lp .PARAGRAPH
    | some b => mmd_line_finish st buf lp (ntype st.doc b)

/-- The blank-line / table section of the per-line chain. -/
def mmd_line_after_quote (st : LoadState) (buf : List Char) (lp : Nat)
    (lines : List (List Char)) (pos : Nat) : LoadState × Nat :=
  if bufget buf lp = nulc then
    ({ st with blank_code := ntype st.doc st.current = .CODE_BLOCK, block := none }, pos)
  else if (strchrFrom buf lp '|').isSome ∧
      (ntype st.doc st.current = .TABLE ∨ (mmd_is_table lines pos).1 = true) then
    (mmd_table_branch st buf lp, pos)
  else
    let st1 :=
      if ntype st.doc st.current = .TABLE then
        { st with current := (nodeAt st.doc.nodes st.current).parent.getD 0, block := none }
      else st
    (mmd_line_classify st1 buf lp, pos)

/-- The block-quote section of the per-line chain. -/
def mmd_line_quote (st : LoadState) (buf : List Char) (lp : Nat)
    (lines : List (List Char)) (pos : Nat) : LoadState × Nat :=
  if bufget buf lp = '>' then
    let anc := findQuoteAncAux st.doc (st.doc.nodes.length + 1) st.current
    let st1 :=
      if anc = 0 ∨ ntype st.doc anc ≠ .BLOCK_QUOTE then
        let (d1, q) := mmd_addD st.doc (some 0) .BLOCK_QUOTE false none none
        { st with doc := d1, current := q }
      else st
    mmd_line_after_quote st1 buf (skipWs buf (lp+1)) lines pos
  else if ntype st.doc st.current = .BLOCK_QUOTE then
    mmd_line_after_quote { st with current := (nodeAt st.doc.nodes st.current).parent.getD 0 }
      buf lp lines pos
  else if ntype st.doc st.current = .TABLE ∧
      optTypeIs st.doc (nodeAt st.doc.nodes st.current).parent .BLOCK_QUOTE = true then
    let p := (nodeAt st.doc.nodes st.current).parent.getD 0
    mmd_line_after_quote { st with current := (nodeAt st.doc.nodes p).parent.getD 0 } buf lp lines pos
  else mmd_line_after_quote st buf lp lines pos

/-- The metadata / thematic-break section of the per-line chain (note that a
    failed thematic-break test falls through with the line pointer already
    advanced past the run, exactly as in the C code). -/
def mmd_line_mid2 (st : LoadState) (buf : List Char) (lp : Nat)
    (lines : List (List Char)) (pos : Nat) : LoadState × Nat :=
  if strncmp3 buf lp '-' ∧ (nodeAt st.doc.nodes 0).first_child = none then
    let (d1, m) := mmd_addD st.doc (some 0) .METADATA false none none
    let (d2, pos2) := mmd_meta_loop m (lines.length + 1) d1 lines pos
    ({ st with doc := d2, block := none }, pos2)
  else if st.block = none ∧ (strncmp3 buf lp '-' ∨ strncmp3 buf lp '*' ∨ strncmp3 buf lp '_') then
    let ch := bufget buf lp
    let r := themSkip buf (lp+3) ch
    if bufget buf r = nulc then
      let d1 := (mmd_addD st.doc (some st.current) .THEMATIC_BREAK false none none).1
      ({ st with doc := d1, block := none }, pos)
    else mmd_line_quote st buf r lines pos
  else mmd_line_quote st buf lp lines pos

/-- The fenced-code-content section of the per-line chain. -/
def mmd_line_mid (st : LoadState) (buf : List Char) (lp : Nat)
    (lines : List (List Char)) (pos : Nat) : LoadState × Nat :=
  match st.block with
  | some b =>
    if ntype st.doc b = .CODE_BLOCK then
      let d1 := (mmd_addD st.doc (some b) .CODE_TEXT false (some (cstr buf 0)) none).1
      ({ st with doc := d1 }, pos)
    else mmd_line_mid2 st buf lp lines pos
  | none => mmd_line_mid2 st buf lp lines pos

/-- Processing of one line read by `mmdLoadFile`: the indented-code and
    fence-toggle branches, then the rest of the chain.  `pos` is the file
    position after this line was read; the returned position accounts for any
    extra lines the branch consumed. -/
def mmd_load_step (st : LoadState) (line : List Char) (lines : List (List Char)) (pos : Nat) :
    LoadState × Nat :=
  let buf := bufOf line
  let lp := skipWs buf 0
  if 4 ≤ lp ∧ st.block = none ∧ (st.current = 0 ∨ ntype st.doc st.current = .CODE_BLOCK) then
    let (d0, cur0) :=
      if st.current = 0 then mmd_addD st.doc (some 0) .CODE_BLOCK false none none
      else (st.doc, st.current)
    let d1 := if st.blank_code then (mmd_addD d0 (some cur0) .CODE_TEXT false (some "\n") none).1 else d0
    let d2 := (mmd_addD d1 (some cur0) .CODE_TEXT false (some (cstr buf 4)) none).1
    ({ st with doc := d2, current := cur0, blank_code := false }, pos)
  else if bufget buf lp = backtickC ∧ (bufget buf (lp+1) = nulc ∨ bufget buf (lp+1) = backtickC) then
    let st1 :=
      match st.block with
      | some b =>
        if ntype st.doc b = .CODE_BLOCK then { st with block := none }
        else if ntype st.doc b = .LIST_ITEM then
          let (d1, c) := mmd_addD st.doc (some b) .CODE_BLOCK false none none
          { st with doc := d1, block := some c }
        else if ntype st.doc ((nodeAt st.doc.nodes b).parent.getD 0) = .LIST_ITEM then
          let (d1, c) := mmd_addD st.doc (some ((nodeAt st.doc.nodes b).parent.getD 0)) .CODE_BLOCK false none none
          { st with doc := d1, block := some c }
        else
          let (d1, c) := mmd_addD st.doc (some st.current) .CODE_BLOCK false none none
          { st with doc := d1, block := some c }
      | none =>
        let (d1, c) := mmd_addD st.doc (some st.current) .CODE_BLOCK false none none
        { st with doc := d1, block := some c }
    (st1, pos)
  else mmd_line_mid st buf lp lines pos

/-- The read loop of `mmdLoadFile`. -/
def mmd_load_loop : Nat → LoadState → List (List Char) → Nat → LoadState
  | 0, st, _, _ => st
  | fuel+1, st, lines, pos =>
    match lines.get? pos with
    | none => st
    | some line =>
      let (st1, pos1) := mmd_load_step st line lines (pos+1)
      mmd_load_loop fuel st1 lines pos1

/-- The state of `mmdLoadFile` just after the empty document is created. -/
def initLoadState : LoadState :=
  { doc := { nodes := (mmd_add [] none .DOCUMENT false none none).1, references := [] },
    current := 0, block := none, blank_code := false,
    columns := List.replicate 256 MType.TABLE_BODY_CELL_LEFT, num_columns := 0, rows := 0 }

/-- `mmdLoadFile` over a list of input lines (each line as delivered by
    `fgets`, i.e. with its trailing newline except possibly the last): run the
    state machine, then resolve still-pending references and free the table. -/
def mmdLoadFile (input : List String) : MDoc :=
  let lines := input.map String.data
  let fin := mmd_load_loop (lines.length + 1) initLoadState lines 0
  { nodes := mmd_final_sweep fin.doc, references := [] }

/-- Result of `mmdCopyAllText`: either a crash (the walk dereferenced a null
    `current` pointer, which the C code does when the node has no children),
    or the returned string, where `none` is a NULL return. -/
inductive CResult where
  | crash
  | ret (s : Option String)
  deriving DecidableEq, Repr

/-- `while (next && next != node && mmdGetNextSibling(next) == NULL) next = mmdGetParent(next);` -/
def copyClimbAux (a : List MNode) (node : Nat) : Nat → Option Nat → Option Nat
  | 0, cur => cur
  | fuel+1, cur =>
    match cur with
    | none => none
    | some c =>
      if c = node then some c
      else
        match (nodeAt a c).next_sibling with
        | some _ => some c
        | none => copyClimbAux a node fuel (nodeAt a c).parent

/-- The buffer-growing step of `mmdCopyAllText` for one visited node: when the
    node carries text, `malloc`/`realloc` the accumulation buffer (the `k`-th
    allocation succeeds when `oracle k` is true; on failure the C code returns
    NULL, encoded as `none` here) and append a space (when the whitespace flag
    is set) followed by the text. -/
def copyAppend (oracle : Nat → Bool) (n : MNode) (allsize : Nat) (all : Option String) (k : Nat) :
    Option (Nat × Option String × Nat) :=
  match n.text with
  | none => some (allsize, all, k)
  | some txt =>
    let ws : Nat := if n.whitespace then 1 else 0
    if allsize = 0 then
      if oracle k then
        some (txt.length + ws + 1, some ((if n.whitespace then " " else "") ++ txt), k+1)
      else none
    else
      if oracle k then
        some (allsize + txt.length + ws,
          some (all.getD "" ++ (if n.whitespace then " " else "") ++ txt), k+1)
      else none

/-- The `find the next logical node` computation of `mmdCopyAllText`: the
    next sibling if there is one, otherwise climb parents while they have no
    next sibling, stopping at `node`. -/
def mmdCopyNext (a : List MNode) (node c : Nat) : Option Nat :=
  match mmdGetNextSibling a (some c) with
  | some ns => some ns
  | none =>
    let nx := copyClimbAux a node (a.length + 1) (mmdGetParent a (some c))
    if nx ≠ some node then mmdGetNextSibling a nx else nx

/-- The walk loop of `mmdCopyAllText` (`while (current != node)`), with the
    sibling/climb step of the C code computing the next visited pointer.
    Every caller passes more fuel than the walk can take steps. -/
def mmdCopyLoop (oracle : Nat → Bool) (a : List MNode) (node : Nat) :
    Nat → Nat → Option String → Nat → Option Nat → CResult
  | 0, _, _, _, _ => .crash
  | fuel+1, allsize, all, k, cur =>
    if cur = some node then .ret all
    else
      match cur with
      | none => .crash
      | some c =>
        match copyAppend oracle (nodeAt a c) allsize all k with
        | none => .ret none
        | some (allsize1, all1, k1) =>
          mmdCopyLoop oracle a node fuel allsize1 all1 k1 (mmdCopyNext a node c)

/-- `mmdCopyAllText`, starting the walk at the node's first child. -/
def mmdCopyAllText (oracle : Nat → Bool) (a : List MNode) (node : Nat) : CResult :=
  mmdCopyLoop oracle a node (a.length + 2) 0 none 0 (mmdGetFirstChild a (some node))

/-- Whitespace-flag/text pairs of the text-carrying nodes among `kids`. -/
def childTexts (a : List MNode) (kids : List Nat) : List (Bool × String) :=
  kids.filterMap (fun k => ((nodeAt a k).text).map (fun s => ((nodeAt a k).whitespace, s)))

/-- Concatenation with one space in front of each whitespace-flagged piece. -/
def catTexts (l : List (Bool × String)) : String :=
  l.foldl (fun acc (p : Bool × String) => acc ++ (if p.1 then " " else "") ++ p.2) ""

/-- The child chain of `node` is exactly `kids`: mutually consistent
    first/last-child and sibling links (in bounded, decidable form). -/
def ChildSpec (a : List MNode) (node : Nat) (kids : List Nat) : Prop :=
  node < a.length ∧ node ∉ kids ∧ kids.Nodup ∧ (∀ k ∈ kids, k < a.length) ∧
  (nodeAt a node).first_child = kids.head? ∧
  (nodeAt a node).last_child = kids.getLast? ∧
  ∀ i ∈ List.range kids.length,
    (nodeAt a (kids.getD i 0)).parent = some node ∧
    (nodeAt a (kids.getD i 0)).next_sibling = kids.get? (i+1) ∧
    (nodeAt a (kids.getD i 0)).prev_sibling = (if i = 0 then none else kids.get? (i-1))

instance (a : List MNode) (node : Nat) (kids : List Nat) : Decidable (ChildSpec a node kids) := by
  unfold ChildSpec; infer_instance

/-- Acceptable character for a table separator line at position `k`. -/
def sepCharOK (l : List Char) (k : Nat) : Prop :=
  (k = 0 ∧ l.getD 0 nulc = '>') ∨
  l.getD k nulc ∈ [' ', '\t', '\n', '\r', ':', '-', '|']

/-- A whole line is a table separator line. -/
def sepLineOK (l : List Char) : Prop := ∀ k < l.length, sepCharOK l k

instance (l : List Char) (k : Nat) : Decidable (sepCharOK l k) := by
  unfold sepCharOK; infer_instance

instance (l : List Char) : Decidable (sepLineOK l) := by
  unfold sepLineOK; infer_instance

/-- Number of nodes of a type in a document. -/
def countType (d : MDoc) (ty : MType) : Nat :=
  (d.nodes.filter (fun n => decide (n.type = ty))).length

/-- The sibling chain under parent `p`: `pr` is the value the previous-sibling
    pointer of the head must have, the second index points at the head, and
    the list collects the chain's members in order. -/
inductive Chain (a : List MNode) (p : Nat) : Option Nat → Option Nat → List Nat → Prop where
  | nil (pr : Option Nat) : Chain a p pr none []
  | cons {pr : Option Nat} {c : Nat} {rest : List Nat} :
      (nodeAt a c).parent = some p →
      (nodeAt a c).prev_sibling = pr →
      Chain a p (some c) (nodeAt a c).next_sibling rest →
      Chain a p pr (some c) (c :: rest)

/-- Global consistency of the tree links of an arena, witnessed by a map
    giving each node the list of its children: a node's membership in a child
    list matches its parent pointer, child lists repeat no node, no node is
    its own child, the chain hanging off each node's first-child pointer is
    exactly its child list with mutually inverse sibling links, the last-child
    pointer names the end of that chain, and parent pointers stay in range. -/
structure ArenaInv (a : List MNode) (kids : Nat → List Nat) : Prop where
  mem : ∀ i j, j ∈ kids i ↔ (j < a.length ∧ (nodeAt a j).parent = some i)
  nodup : ∀ i, (kids i).Nodup
  noSelf : ∀ i, i ∉ kids i
  lastC : ∀ i, i < a.length → (nodeAt a i).last_child = (kids i).getLast?
  chain : ∀ i, i < a.length → Chain a i none (nodeAt a i).first_child (kids i)
  parentRange : ∀ j, j < a.length → ∀ i, (nodeAt a j).parent = some i → i < a.length
  orphan : ∀ j, j < a.length → (nodeAt a j).parent = none →
    (nodeAt a j).prev_sibling = none ∧ (nodeAt a j).next_sibling = none

/-- Tree-link consistency of an arena. -/
def Consistent (a : List MNode) : Prop := ∃ kids, ArenaInv a kids

def alwaysAlloc : Nat → Bool := fun _ => true

def neverAlloc : Nat → Bool := fun _ => false

/-- A childless node (the C walk dereferences NULL on it). -/
def leafArena : List MNode := [{ type := .PARAGRAPH }]

/-- A node whose only child is text-free but has a text grandchild. -/
def grandArena : List MNode :=
  [ { type := .DOCUMENT, first_child := some 1, last_child := some 1 },
    { type := .PARAGRAPH, parent := some 0, first_child := some 2, last_child := some 2 },
    { type := .NORMAL_TEXT, text := some "x", parent := some 1 } ]

/-- A node whose single text child has the whitespace flag set. -/
def wsFirstArena : List MNode :=
  [ { type := .PARAGRAPH, first_child := some 1, last_child := some 1 },
    { type := .NORMAL_TEXT, whitespace := true, text := some "Hello", parent := some 0 } ]

/-- Children `Hello` and `world`, the second with the given whitespace flag. -/
def helloWorldArena (w2 : Bool) : List MNode :=
  [ { type := .PARAGRAPH, first_child := some 1, last_child := some 2 },
    { type := .NORMAL_TEXT, text := some "Hello", parent := some 0, next_sibling := some 2 },
    { type := .NORMAL_TEXT, whitespace := w2, text := some "world", parent := some 0,
      prev_sibling := some 1 } ]

/-- A node with one child that carries no text. -/
def noTextArena : List MNode :=
  [ { type := .PARAGRAPH, first_child := some 1, last_child := some 1 },
    { type := .THEMATIC_BREAK, parent := some 0 } ]

/-- A node with one text child. -/
def textArena : List MNode :=
  [ { type := .PARAGRAPH, first_child := some 1, last_child := some 1 },
    { type := .NORMAL_TEXT, text := some "x", parent := some 0 } ]

/-- Specification-side rendition of the `mmdCopyAllText` accumulation: fold
    `copyAppend` over the whitespace/text pairs of the visited nodes. -/
def specWalk (oracle : Nat → Bool) :
    List (Bool × String) → Nat → Option String → Nat → CResult
  | [], _, all, _ => .ret all
  | p :: l, allsize, all, k =>
    match copyAppend oracle { text := some p.2, whitespace := p.1 } allsize all k with
    | none => .ret none
    | some (a1, s1, k1) => specWalk oracle l a1 s1 k1

/-- Two arenas agree on the tree-link fields of node `j`. -/
def sibEq (a a2 : List MNode) (j : Nat) : Prop :=
  (nodeAt a2 j).parent = (nodeAt a j).parent ∧
  (nodeAt a2 j).prev_sibling = (nodeAt a j).prev_sibling ∧
  (nodeAt a2 j).next_sibling = (nodeAt a j).next_sibling

/-- A document with one pending link node waiting on the entry `bar`. -/
def refWitnessDoc : MDoc :=
  { nodes := [{ type := .LINKED_TEXT, text := some "foo" }],
    references := [{ name := "bar", pending := [0] }] }

/-- A document with one node pending on the never-defined entry `missing`. -/
def refWitnessMissing : MDoc :=
  { nodes := [{ type := .LINKED_TEXT, text := some "foo" }],
    references := [{ name := "missing", pending := [0] }] }

/-- A small document (root and one paragraph) used to instantiate step
    theorems. -/
def inlineWitnessDoc : MDoc :=
  { nodes := [{ type := .DOCUMENT, first_child := some 1, last_child := some 1 },
              { type := .PARAGRAPH, parent := some 0 }] }

/-- A one-node arena (a bare document root) for exercising add and detach. -/
def c9Arena : List MNode := [{ type := .DOCUMENT }]

/-! ### Basic arena lemmas -/

theorem length_setNode (a : List MNode) (i : Nat) (f : MNode → MNode) :
    (setNode a i f).length = a.length := by
  simp [setNode]

theorem nodeAt_eq_getElem? (a : List MNode) (i : Nat) :
    nodeAt a i = a[i]?.getD defaultNode := by
  simp [nodeAt, List.getD_eq_getElem?_getD]

theorem nodeAt_set_self {a : List MNode} {i : Nat} (h : i < a.length) (f : MNode → MNode) :
    nodeAt (setNode a i f) i = f (nodeAt a i) := by
  simp [setNode, nodeAt_eq_getElem?, List.getElem?_set_self (by simpa using h)]

theorem nodeAt_set_ne {a : List MNode} {i j : Nat} (h : i ≠ j) (f : MNode → MNode) :
    nodeAt (setNode a i f) j = nodeAt a j := by
  simp [setNode, nodeAt_eq_getElem?, List.getElem?_set_ne h]

theorem nodeAt_append_lt {a : List MNode} {x : MNode} {j : Nat} (h : j < a.length) :
    nodeAt (a ++ [x]) j = nodeAt a j := by
  simp [nodeAt_eq_getElem?, List.getElem?_append, if_pos h]

theorem nodeAt_append_self (a : List MNode) (x : MNode) :
    nodeAt (a ++ [x]) a.length = x := by
  simp [nodeAt_eq_getElem?]

theorem nodeAt_out {a : List MNode} {j : Nat} (h : a.length ≤ j) : nodeAt a j = defaultNode := by
  simp [nodeAt_eq_getElem?, List.getElem?_eq_none h]

theorem length_filter_set {α : Type} (p : α → Bool) :
    ∀ (l : List α) (i : Nat) (x : α), p x = p (l.getD i x) →
      ((l.set i x).filter p).length = (l.filter p).length := by
  intro l
  induction l with
  | nil => intro i x h; simp
  | cons a t ih =>
    intro i x h
    cases i with
    | zero =>
      simp only [List.getD_cons_zero] at h
      cases hd : p a <;> simp [List.filter_cons, h, hd]
    | succ n =>
      simp only [List.getD_cons_succ] at h
      simp only [List.set_cons_succ, List.filter_cons]
      cases hd : p a <;> simp [hd, ih n x h]

theorem filter_type_set (a : List MNode) (i : Nat) (f : MNode → MNode) (ty : MType)
    (hf : (f (nodeAt a i)).type = (nodeAt a i).type) :
    ((setNode a i f).filter (fun n => decide (n.type = ty))).length =
      (a.filter (fun n => decide (n.type = ty))).length := by
  unfold setNode
  apply length_filter_set
  by_cases h : i < a.length
  · have hg : a.getD i (f (nodeAt a i)) = nodeAt a i := by
      rw [List.getD_eq_getElem?_getD, List.getElem?_eq_getElem h]
      simp [nodeAt_eq_getElem?, List.getElem?_eq_getElem h]
    rw [hg, hf]
  · have hle := Nat.le_of_not_lt h
    rw [List.getD_eq_getElem?_getD, List.getElem?_eq_none hle]
    simp

theorem countType_addD (d : MDoc) (p : Option Nat) (ty2 : MType) (ws : Bool)
    (t u : Option String) (ty : MType) :
    countType (mmd_addD d p ty2 ws t u).1 ty = countType d ty + (if ty2 = ty then 1 else 0) := by
  unfold countType mmd_addD mmd_add
  cases p with
  | none =>
    simp only [List.filter_append, List.length_append]
    cases hd : decide (ty2 = ty) <;> simp_all [List.filter]
  | some pp =>
    cases hlc : (nodeAt d.nodes pp).last_child with
    | none =>
      simp only [hlc, List.filter_append, List.length_append]
      rw [filter_type_set _ _ _ ty rfl]
      cases hd : decide (ty2 = ty) <;> simp_all [List.filter]
    | some lc =>
      simp only [hlc, List.filter_append, List.length_append]
      rw [filter_type_set _ _ _ ty rfl, filter_type_set _ _ _ ty rfl]
      cases hd : decide (ty2 = ty) <;> simp_all [List.filter]

theorem refAt_set_self {rs : List MRef} {i : Nat} (h : i < rs.length) (x : MRef) :
    refAt (rs.set i x) i = x := by
  simp [refAt, List.getD_eq_getElem?_getD, List.getElem?_set_self (by simpa using h)]

theorem findIdx?_lt {α : Type} {p : α → Bool} {l : List α} {i : Nat}
    (h : l.findIdx? p = some i) : i < l.length := by
  have := List.findIdx?_eq_some_iff_findIdx_eq.mp h
  omega

theorem nodeAt_foldl_setNode_not_mem (g : MNode → MNode) :
    ∀ (l : List Nat) (a : List MNode) (n : Nat), n ∉ l →
      nodeAt (l.foldl (fun acc m => setNode acc m g) a) n = nodeAt a n := by
  intro l
  induction l with
  | nil => intro a n _; rfl
  | cons h t ih =>
    intro a n hn
    simp only [List.foldl_cons]
    rw [ih _ _ (by simp at hn; exact hn.2), nodeAt_set_ne (by simp at hn; exact fun e => hn.1 e.symm)]

theorem length_foldl_setNode (g : MNode → MNode) :
    ∀ (l : List Nat) (a : List MNode),
      (l.foldl (fun acc m => setNode acc m g) a).length = a.length := by
  intro l
  induction l with
  | nil => intro a; rfl
  | cons h t ih => intro a; simp only [List.foldl_cons]; rw [ih, length_setNode]

theorem url_foldl_setNode (u : String) :
    ∀ (l : List Nat) (a : List MNode) (n : Nat), n < a.length →
      (n ∈ l ∨ (nodeAt a n).url = some u) →
      (nodeAt (l.foldl (fun acc m =>
          setNode acc m (fun x => { x with url := some u })) a) n).url = some u := by
  intro l
  induction l with
  | nil =>
    intro a n _ h
    cases h with
    | inl h => cases h
    | inr h => exact h
  | cons h t ih =>
    intro a n hn hmem
    simp only [List.foldl_cons]
    by_cases he : n = h
    · subst he
      apply ih _ _ (by rw [length_setNode]; exact hn)
      right
      rw [nodeAt_set_self hn]
    · apply ih _ _ (by rw [length_setNode]; exact hn)
      cases hmem with
      | inl hm =>
        cases List.mem_cons.mp hm with
        | inl e => exact absurd e he
        | inr m => exact Or.inl m
      | inr hu =>
        right
        rw [nodeAt_set_ne (fun e => he e.symm)]
        exact hu

theorem nodup_bounded_length {l : List Nat} {n : Nat} (hd : l.Nodup) (hb : ∀ x ∈ l, x < n) :
    l.length ≤ n := by
  have h1 : l.toFinset ⊆ Finset.range n := by
    intro x hx
    simp only [List.mem_toFinset] at hx
    simp [Finset.mem_range, hb x hx]
  have h2 := Finset.card_le_card h1
  rw [List.toFinset_card_of_nodup hd, Finset.card_range] at h2
  exact h2

/-! ### Claim theorems -/

/-- C5, counterexample: the line `*oops` does not produce a plain-text node
    with the literal text `*oops`; instead the tokenizer leaves the emphasis
    span open, drops the asterisk, and flushes the text as an emphasized
    node. -/
theorem unterminated_emphasis_not_literal :
    (∀ n ∈ (mmdLoadFile ["*oops\n"]).nodes, ¬ (n.type = .NORMAL_TEXT ∧ n.text = some "*oops")) ∧
    countType (mmdLoadFile ["*oops\n"]) .EMPHASIZED_TEXT = 1 := by decide

/-- C5, amended: an unterminated inline emphasis marker is not an error, but
    the marker is consumed rather than kept literally: the input line `*oops`
    produces a single emphasized-text node with text `oops` under the
    paragraph. -/
theorem unterminated_emphasis_emits_emphasized :
    (mmdLoadFile ["*oops\n"]).nodes =
      [ { type := .DOCUMENT, first_child := some 1, last_child := some 1 },
        { type := .PARAGRAPH, parent := some 0, first_child := some 2, last_child := some 2 },
        { type := .EMPHASIZED_TEXT, text := some "oops", parent := some 1 } ] := by decide

/-- C10: once a reference entry's URL is set, a later `mmd_ref_add` carrying a
    URL (the definition path, with no link node) leaves the document — in
    particular the entry's stored URL — completely unchanged, whatever the
    later URL is; the lookup is case-insensitive via `mmd_ref_find`. -/
theorem first_reference_definition_wins :
    ∀ (d : MDoc) (name : String) (ri : Nat) (u : String) (url2 : Option String),
      mmd_ref_find d name = some ri → (refAt d.references ri).url = some u →
      mmd_ref_add d none name url2 = d := by
  intro d name ri u url2 hf hu
  unfold mmd_ref_add
  rw [hf]
  simp only [hu]
  cases url2 <;> rfl

/-- Witness for C10 at a concrete table: the entry `Bar ↦ u1` survives a later
    definition `bAr: u2` untouched. -/
theorem first_reference_definition_wins_witness :
    mmd_ref_find { nodes := [], references := [{ name := "Bar", url := some "u1" }] } "bAr" = some 0 ∧
    (refAt [{ name := "Bar", url := some "u1" }] 0).url = some "u1" ∧
    mmd_ref_add { nodes := [], references := [{ name := "Bar", url := some "u1" }] } none "bAr"
        (some "u2") =
      { nodes := [], references := [{ name := "Bar", url := some "u1" }] } :=
  ⟨by decide, by decide,
    first_reference_definition_wins _ "bAr" 0 "u1" (some "u2") (by decide) (by decide)⟩

/-- C3, counterexample: `mmdCopyAllText` does not return the concatenated text
    of every descendant.  (1) A text-carrying grandchild is never visited (the
    walk follows only sibling links from the first child, never descending),
    so a node whose only text lies one level deeper yields NULL.  (2) A space
    is inserted even before the very first text piece when its whitespace flag
    is set.  (3) On a childless node the walk dereferences a NULL current
    pointer instead of returning an empty result. -/
theorem copyAllText_descendants_not_collected :
    mmdCopyAllText alwaysAlloc grandArena 0 = .ret none ∧
    (nodeAt grandArena 2).text = some "x" ∧
    (nodeAt grandArena 2).parent = some 1 ∧ (nodeAt grandArena 1).parent = some 0 ∧
    mmdCopyAllText alwaysAlloc wsFirstArena 0 = .ret (some " Hello") ∧
    mmdCopyAllText alwaysAlloc leafArena 0 = .crash := by decide

/-- C4, counterexample: the absent (NULL) result does not distinguish
    allocation failure from "no text found": a node whose child carries no
    text returns NULL under an always-succeeding allocator, and a node with a
    text child returns NULL under a failing allocator — the two results are
    the same value. -/
theorem copyAllText_null_indistinguishable :
    mmdCopyAllText alwaysAlloc noTextArena 0 = .ret none ∧
    mmdCopyAllText neverAlloc textArena 0 = .ret none ∧
    mmdCopyAllText alwaysAlloc noTextArena 0 = mmdCopyAllText neverAlloc textArena 0 := by decide

/-- C6, counterexample: a single trailing space before the end of the line
    does emit a hard-break node (the line as read ends in space + newline, so
    the two-whitespace-then-NUL test fires), and a run of three trailing
    spaces — not exactly two — emits one as well. -/
theorem single_trailing_space_hard_break :
    countType (mmdLoadFile ["a \n"]) .HARD_BREAK = 1 ∧
    countType (mmdLoadFile ["a   \n"]) .HARD_BREAK = 1 := by decide

/-- C7, counterexample: three lines the claim covers that produce no
    thematic-break node: `- - -` (whitespace between the first markers) makes
    an unordered list, `---` as the very first line opens the metadata block,
    and a marker line indented by four spaces becomes indented code. -/
theorem thematic_break_interspersed_fails :
    countType (mmdLoadFile ["- - -\n"]) .THEMATIC_BREAK = 0 ∧
    countType (mmdLoadFile ["- - -\n"]) .UNORDERED_LIST = 1 ∧
    countType (mmdLoadFile ["---\n"]) .THEMATIC_BREAK = 0 ∧
    countType (mmdLoadFile ["---\n"]) .METADATA = 1 ∧
    countType (mmdLoadFile ["    ***\n"]) .THEMATIC_BREAK = 0 ∧
    countType (mmdLoadFile ["    ***\n"]) .CODE_BLOCK = 1 := by decide

theorem length_sweep_ref (a : List MNode) (r : MRef) : (mmd_sweep_ref a r).length = a.length := by
  unfold mmd_sweep_ref
  split
  · exact length_foldl_setNode _ _ _
  · rfl

theorem nodeAt_sweep_not_mem {a : List MNode} {r : MRef} {n : Nat} (h : n ∉ r.pending) :
    nodeAt (mmd_sweep_ref a r) n = nodeAt a n := by
  unfold mmd_sweep_ref
  split
  · exact nodeAt_foldl_setNode_not_mem _ _ _ _ h
  · rfl

theorem nodeAt_foldl_sweep_not_mem :
    ∀ (rs : List MRef) (a : List MNode) (n : Nat), (∀ r2 ∈ rs, n ∉ r2.pending) →
      nodeAt (rs.foldl mmd_sweep_ref a) n = nodeAt a n := by
  intro rs
  induction rs with
  | nil => intro a n _; rfl
  | cons r rs ih =>
    intro a n h
    simp only [List.foldl_cons]
    rw [ih _ _ (fun r2 h2 => h r2 (by simp [h2])), nodeAt_sweep_not_mem (h r (by simp))]

theorem sweep_foldl_url (nm : String) :
    ∀ (rs : List MRef) (a : List MNode) (n : Nat), n < a.length →
      (∃ r ∈ rs, n ∈ r.pending ∧ r.name = nm) →
      (∀ r2 ∈ rs, n ∈ r2.pending → r2.name = nm) →
      (nodeAt (rs.foldl mmd_sweep_ref a) n).url = some nm := by
  intro rs
  induction rs with
  | nil =>
    intro a n _ hex _
    exact absurd hex (by simp)
  | cons r rs ih =>
    intro a n hn hex hall
    simp only [List.foldl_cons]
    by_cases hmem : n ∈ r.pending
    · have hra : (nodeAt (mmd_sweep_ref a r) n).url = some nm := by
        unfold mmd_sweep_ref
        have hne : r.pending ≠ [] := by intro e; rw [e] at hmem; cases hmem
        rw [if_pos hne, hall r (by simp) hmem]
        exact url_foldl_setNode nm r.pending a n hn (Or.inl hmem)
      by_cases hex2 : ∃ r2 ∈ rs, n ∈ r2.pending
      · obtain ⟨r2, hr2, hm2⟩ := hex2
        exact ih _ _ (by rw [length_sweep_ref]; exact hn)
          ⟨r2, hr2, hm2, hall r2 (by simp [hr2]) hm2⟩
          (fun r3 h3 hm3 => hall r3 (by simp [h3]) hm3)
      · rw [nodeAt_foldl_sweep_not_mem rs _ n (fun r2 h2 hm2 => hex2 ⟨r2, h2, hm2⟩)]
        exact hra
    · have hpres : nodeAt (mmd_sweep_ref a r) n = nodeAt a n := nodeAt_sweep_not_mem hmem
      obtain ⟨r2, hr2, hm2, hnm2⟩ := hex
      have hr2' : r2 ∈ rs := by
        cases List.mem_cons.mp hr2 with
        | inl e => rw [e] at hm2; exact absurd hm2 hmem
        | inr h => exact h
      exact ih _ _ (by rw [length_sweep_ref]; exact hn) ⟨r2, hr2', hm2, hnm2⟩
        (fun r3 h3 hm3 => hall r3 (by simp [h3]) hm3)

/-- C1: when a reference definition `name: url` arrives (through
    `mmd_parse_link`, so with no link node) for a name whose entry has no URL
    yet, `mmd_ref_add` stores the URL in the entry, assigns it to every node
    in the entry's pending list, and clears that list; end-to-end the input
    `[foo][bar]`, blank, `[bar]: http://example.com` finishes with the
    linked-text node `foo` carrying the URL `http://example.com`. -/
theorem ref_definition_backpatches_pending :
    (∀ (d : MDoc) (name u : String) (ri : Nat),
      mmd_ref_find d name = some ri → (refAt d.references ri).url = none →
      refAt (mmd_ref_add d none name (some u)).references ri =
        { refAt d.references ri with url := some u, pending := [] } ∧
      (∀ n ∈ (refAt d.references ri).pending, n < d.nodes.length →
        (nodeAt (mmd_ref_add d none name (some u)).nodes n).url = some u) ∧
      (mmd_ref_add d none name (some u)).nodes.length = d.nodes.length) ∧
    nodeAt (mmdLoadFile ["[foo][bar]\n", "\n", "[bar]: http://example.com\n"]).nodes 2 =
      { type := .LINKED_TEXT, text := some "foo", url := some "http://example.com",
        parent := some 1 } := by
  constructor
  · intro d name u ri hf hu
    have hlt : ri < d.references.length := findIdx?_lt hf
    unfold mmd_ref_add
    rw [hf]
    simp only [hu]
    refine ⟨refAt_set_self hlt _, ?_, length_foldl_setNode _ _ _⟩
    intro n hn hlen
    exact url_foldl_setNode u _ _ _ hlen (Or.inl hn)
  · decide

/-- Witness for C1: a table with entry `bar` (no URL, node 0 pending) hit by
    the definition `BAR: http://x`. -/
theorem ref_definition_backpatches_pending_witness :
    mmd_ref_find refWitnessDoc "BAR" = some 0 ∧
    (refAt refWitnessDoc.references 0).url = none ∧
    refAt (mmd_ref_add refWitnessDoc none "BAR" (some "http://x")).references 0 =
      { name := "bar", url := some "http://x", pending := [] } ∧
    (nodeAt (mmd_ref_add refWitnessDoc none "BAR" (some "http://x")).nodes 0).url =
      some "http://x" :=
  ⟨by decide, by decide,
    ((ref_definition_backpatches_pending.1 refWitnessDoc "BAR" "http://x" 0
      (by decide) (by decide)).1).trans (by decide),
    (ref_definition_backpatches_pending.1 refWitnessDoc "BAR" "http://x" 0
      (by decide) (by decide)).2.1 0 (by decide) (by decide)⟩

/-- C2: at end of parse, a reference entry that still has pending nodes and
    never received a URL resolves each pending node by assigning the
    reference name itself as the node's URL; end-to-end, `[foo][missing]`
    with no definition yields a linked-text node whose URL is the literal
    string `missing`. -/
theorem end_sweep_assigns_reference_name :
    (∀ (d : MDoc) (r : MRef) (n : Nat),
      r ∈ d.references → r.url = none → n ∈ r.pending → n < d.nodes.length →
      (∀ r2 ∈ d.references, n ∈ r2.pending → r2.name = r.name) →
      (nodeAt (mmd_final_sweep d) n).url = some r.name) ∧
    nodeAt (mmdLoadFile ["[foo][missing]\n"]).nodes 2 =
      { type := .LINKED_TEXT, text := some "foo", url := some "missing",
        parent := some 1 } := by
  constructor
  · intro d r n hr _ hmem hn hall
    exact sweep_foldl_url r.name d.references d.nodes n hn ⟨r, hr, hmem, rfl⟩ hall
  · decide

/-- Witness for C2 at a concrete document: the pending node of the URL-less
    entry `missing` ends with URL `missing`. -/
theorem end_sweep_assigns_reference_name_witness :
    ({ name := "missing", pending := [0] } : MRef) ∈ refWitnessMissing.references ∧
    (nodeAt (mmd_final_sweep refWitnessMissing) 0).url = some "missing" :=
  ⟨by decide,
    end_sweep_assigns_reference_name.1 refWitnessMissing { name := "missing", pending := [0] } 0
      (by decide) (by decide) (by decide) (by decide) (by decide)⟩

theorem bufget_bufOf_lt {l : List Char} {p : Nat} (h : p < l.length) :
    bufget (bufOf l) p = l.getD p nulc := by
  simp [bufget, bufOf, List.getD_eq_getElem?_getD, List.getElem?_append, if_pos h]

theorem bufget_bufOf_ge {l : List Char} {p : Nat} (h : l.length ≤ p) :
    bufget (bufOf l) p = nulc := by
  rcases Nat.eq_or_lt_of_le h with he | hl
  · simp [bufget, bufOf, List.getD_eq_getElem?_getD, ← he]
  · have : (bufOf l).length ≤ p := by simp [bufOf]; omega
    simp [bufget, List.getD_eq_getElem?_getD, List.getElem?_eq_none this]

theorem getD_mem_of_lt {l : List Char} {p : Nat} (h : p < l.length) : l.getD p nulc ∈ l := by
  rw [List.getD_eq_getElem?_getD, List.getElem?_eq_getElem h]
  exact List.getElem_mem h

set_option maxHeartbeats 1000000 in
theorem is_table_scan_iff (l : List Char) (hnul : nulc ∉ l) :
    ∀ (fuel p : Nat), p ≤ l.length → l.length + 1 ≤ fuel + p →
      (is_table_scanAux fuel (bufOf l) p = true ↔ ∀ k, p ≤ k → k < l.length → sepCharOK l k) := by
  intro fuel
  induction fuel with
  | zero =>
    intro p hp hf
    omega
  | succ fuel ih =>
    intro p hp hf
    rcases Nat.eq_or_lt_of_le hp with he | hlt
    · unfold is_table_scanAux
      rw [if_pos (bufget_bufOf_ge (Nat.le_of_eq he.symm))]
      simp only [true_iff]
      intro k hk1 hk2
      omega
    · have hbg : bufget (bufOf l) p = l.getD p nulc := bufget_bufOf_lt hlt
      have hne : l.getD p nulc ≠ nulc := fun e => hnul (e ▸ getD_mem_of_lt hlt)
      have hsplit : (∀ k, p ≤ k → k < l.length → sepCharOK l k) ↔
          (sepCharOK l p ∧ ∀ k, p + 1 ≤ k → k < l.length → sepCharOK l k) := by
        constructor
        · intro h
          exact ⟨h p le_rfl hlt, fun k h1 h2 => h k (by omega) h2⟩
        · rintro ⟨h1, h2⟩ k hk1 hk2
          rcases Nat.eq_or_lt_of_le hk1 with he2 | hl2
          · rw [← he2]; exact h1
          · exact h2 k hl2 hk2
      unfold is_table_scanAux
      rw [if_neg (by rw [hbg]; exact hne), hsplit]
      have hih := ih (p+1) (by omega) (by omega)
      by_cases hgt : p = 0 ∧ bufget (bufOf l) p = '>'
      · rw [if_pos hgt, hih]
        have hcp : sepCharOK l p := by
          left
          refine ⟨hgt.1, ?_⟩
          have hgt2 := hgt.2
          rw [hgt.1] at hgt2 hbg
          rw [← hbg]
          exact hgt2
        constructor
        · intro h; exact ⟨hcp, h⟩
        · intro h; exact h.2
      · rw [if_neg hgt]
        by_cases hsep : bufget (bufOf l) p = ' ' ∨ bufget (bufOf l) p = '\t' ∨
            bufget (bufOf l) p = '\n' ∨ bufget (bufOf l) p = '\r' ∨
            bufget (bufOf l) p = ':' ∨ bufget (bufOf l) p = '-' ∨ bufget (bufOf l) p = '|'
        · rw [if_pos hsep, hih]
          have hcp : sepCharOK l p := by
            right
            rw [hbg] at hsep
            simpa using hsep
          constructor
          · intro h; exact ⟨hcp, h⟩
          · intro h; exact h.2
        · rw [if_neg hsep]
          simp only [Bool.false_eq_true, false_iff]
          intro hcp
          rcases hcp.1 with ⟨he0, hch⟩ | hmem
          · refine hgt ⟨he0, ?_⟩
            rw [he0] at hbg ⊢
            rw [hbg]
            exact hch
          · rw [hbg] at hsep
            exact hsep (by simpa using hmem)

/-- C8: the table lookahead saves and restores the read position (the file
    position after the call equals the position before it), answers false
    when no next line exists, answers true exactly when the next line
    contains only `:`, `-`, `|` and whitespace with at most a single leading
    `>`; and its verdict only matters for a `|`-bearing line outside an open
    table: with a table already open, or with no `|` in the line, the
    dispatch result is the same whatever the upcoming lines are. -/
theorem table_lookahead_spec :
    (∀ (lines : List (List Char)) (pos : Nat), (mmd_is_table lines pos).2 = pos) ∧
    (∀ (lines : List (List Char)) (pos : Nat), lines.get? pos = none →
      (mmd_is_table lines pos).1 = false) ∧
    (∀ (lines : List (List Char)) (pos : Nat) (l : List Char),
      lines.get? pos = some l → nulc ∉ l →
      ((mmd_is_table lines pos).1 = true ↔ sepLineOK l)) ∧
    (∀ (st : LoadState) (buf : List Char) (lp : Nat) lines pos lines2 pos2,
      ntype st.doc st.current = .TABLE →
      (mmd_line_after_quote st buf lp lines pos).1 =
        (mmd_line_after_quote st buf lp lines2 pos2).1) ∧
    (∀ (st : LoadState) (buf : List Char) (lp : Nat) lines pos lines2 pos2,
      strchrFrom buf lp '|' = none →
      (mmd_line_after_quote st buf lp lines pos).1 =
        (mmd_line_after_quote st buf lp lines2 pos2).1) := by
  refine ⟨?_, ?_, ?_, ?_, ?_⟩
  · intro lines pos
    unfold mmd_is_table
    cases lines.get? pos <;> rfl
  · intro lines pos h
    unfold mmd_is_table
    rw [h]
  · intro lines pos l h hnul
    unfold mmd_is_table
    rw [h]
    have hiff := is_table_scan_iff l hnul ((bufOf l).length + 1) 0 (Nat.zero_le _)
      (by simp [bufOf])
    rw [hiff]
    unfold sepLineOK
    constructor
    · intro hh k hk; exact hh k (Nat.zero_le _) hk
    · intro hh k _ hk; exact hh k hk
  · intro st buf lp lines pos lines2 pos2 ht
    unfold mmd_line_after_quote
    by_cases hb : bufget buf lp = nulc
    · rw [if_pos hb, if_pos hb]
    · rw [if_neg hb, if_neg hb]
      by_cases hc : (strchrFrom buf lp '|').isSome = true
      · have h1 : (strchrFrom buf lp '|').isSome = true ∧
            (ntype st.doc st.current = .TABLE ∨ (mmd_is_table lines pos).1 = true) :=
          ⟨hc, Or.inl ht⟩
        have h2 : (strchrFrom buf lp '|').isSome = true ∧
            (ntype st.doc st.current = .TABLE ∨ (mmd_is_table lines2 pos2).1 = true) :=
          ⟨hc, Or.inl ht⟩
        rw [if_pos h1, if_pos h2]
      · have h1 : ¬((strchrFrom buf lp '|').isSome = true ∧
            (ntype st.doc st.current = .TABLE ∨ (mmd_is_table lines pos).1 = true)) :=
          fun hx => hc hx.1
        have h2 : ¬((strchrFrom buf lp '|').isSome = true ∧
            (ntype st.doc st.current = .TABLE ∨ (mmd_is_table lines2 pos2).1 = true)) :=
          fun hx => hc hx.1
        rw [if_neg h1, if_neg h2]
  · intro st buf lp lines pos lines2 pos2 hn
    unfold mmd_line_after_quote
    by_cases hb : bufget buf lp = nulc
    · rw [if_pos hb, if_pos hb]
    · rw [if_neg hb, if_neg hb]
      have hc : ¬ (strchrFrom buf lp '|').isSome = true := by rw [hn]; simp
      have h1 : ¬((strchrFrom buf lp '|').isSome = true ∧
          (ntype st.doc st.current = .TABLE ∨ (mmd_is_table lines pos).1 = true)) :=
        fun hx => hc hx.1
      have h2 : ¬((strchrFrom buf lp '|').isSome = true ∧
          (ntype st.doc st.current = .TABLE ∨ (mmd_is_table lines2 pos2).1 = true)) :=
        fun hx => hc hx.1
      rw [if_neg h1, if_neg h2]

/-- Witness for C8 at concrete inputs: the position is restored, `|---|:-:|`
    is accepted as a separator line and `| 1 | 2 |` is not. -/
theorem table_lookahead_spec_witness :
    (mmd_is_table ["|---|:-:|\n".data] 0).2 = 0 ∧
    (mmd_is_table ["|---|:-:|\n".data] 0).1 = true ∧
    sepLineOK "|---|:-:|\n".data ∧
    ¬ sepLineOK "| 1 | 2 |\n".data ∧
    (mmd_is_table ["| 1 | 2 |\n".data] 0).1 = false := by
  refine ⟨table_lookahead_spec.1 ["|---|:-:|\n".data] 0, ?_, by decide, by decide, ?_⟩
  · exact (table_lookahead_spec.2.2.1 ["|---|:-:|\n".data] 0 "|---|:-:|\n".data
      (by decide) (by decide)).mpr (by decide)
  · have h := table_lookahead_spec.2.2.1 ["| 1 | 2 |\n".data] 0 "| 1 | 2 |\n".data
      (by decide) (by decide)
    by_contra hx
    simp only [Bool.not_eq_false] at hx
    exact absurd (h.mp hx) (by decide)

theorem bufget_set_ne {buf : List Char} {i j : Nat} (h : i ≠ j) (c : Char) :
    bufget (buf.set i c) j = bufget buf j := by
  simp [bufget, List.getD_eq_getElem?_getD, List.getElem?_set_ne h]

/-- C6, amended: at a whitespace position outside a code span the tokenizer
    continues at the next position with the run flushed, the span type kept
    and the whitespace flag pending, and it emits a hard-break node exactly
    when the following character is also whitespace and the character after
    that is the line terminator; since the block machine passes lines with
    their trailing newline, both `ab  ` (two trailing spaces at end of input)
    and `ab \n` (a single trailing space before the newline) produce exactly
    one hard break, while `ab\n` produces none. -/
theorem hard_break_step_condition :
    (∀ (parent : Nat) (d : MDoc) (buf : List Char) (i : Nat) (text : Option Nat)
        (ty : MType) (ws : Bool),
      c_isspace (bufget buf i) = true → ty ≠ .CODE_TEXT → ty ≠ .HARD_BREAK →
      ∃ d2 buf1,
        mmd_inline_step parent d buf i text ty ws = .cont d2 buf1 (i+1) none ty true ∧
        countType d2 .HARD_BREAK = countType d .HARD_BREAK +
          (if c_isspace (bufget buf (i+1)) = true ∧ bufget buf (i+2) = nulc then 1 else 0)) ∧
    countType (mmdLoadFile ["ab  "]) .HARD_BREAK = 1 ∧
    countType (mmdLoadFile ["ab \n"]) .HARD_BREAK = 1 ∧
    countType (mmdLoadFile ["ab\n"]) .HARD_BREAK = 0 := by
  refine ⟨?_, by decide, by decide, by decide⟩
  intro parent d buf i text ty ws hsp htyc htyh
  unfold mmd_inline_step
  rw [if_pos ⟨hsp, htyc⟩]
  cases text with
  | none =>
    refine ⟨_, buf, rfl, ?_⟩
    by_cases hc : c_isspace (bufget buf (i+1)) = true ∧ bufget buf (i+2) = nulc
    · rw [if_pos hc, if_pos hc, countType_addD]
      simp
    · rw [if_neg hc, if_neg hc]
      simp
  | some t =>
    have h1 : bufget (buf.set i nulc) (i+1) = bufget buf (i+1) := bufget_set_ne (by omega) _
    have h2 : bufget (buf.set i nulc) (i+2) = bufget buf (i+2) := bufget_set_ne (by omega) _
    refine ⟨_, buf.set i nulc, rfl, ?_⟩
    rw [h1, h2]
    by_cases hc : c_isspace (bufget buf (i+1)) = true ∧ bufget buf (i+2) = nulc
    · rw [if_pos hc, if_pos hc, countType_addD, countType_addD]
      simp [htyh]
    · rw [if_neg hc, if_neg hc, countType_addD]
      simp [htyh]

/-- Witness for C6 at a concrete step: position 2 of `ab  ` (no newline), a
    space followed by a space and the terminator, emits one hard break. -/
theorem hard_break_step_condition_witness :
    c_isspace (bufget (bufOf "ab  ".data) 2) = true ∧
    (∃ d2 buf1,
      mmd_inline_step 1 inlineWitnessDoc (bufOf "ab  ".data) 2 (some 0) .NORMAL_TEXT false =
        .cont d2 buf1 3 none .NORMAL_TEXT true ∧
      countType d2 .HARD_BREAK = countType inlineWitnessDoc .HARD_BREAK +
        (if c_isspace (bufget (bufOf "ab  ".data) 3) = true ∧ bufget (bufOf "ab  ".data) 4 = nulc
         then 1 else 0)) :=
  ⟨by decide,
    hard_break_step_condition.1 1 inlineWitnessDoc (bufOf "ab  ".data) 2 (some 0) .NORMAL_TEXT
      false (by decide) (by decide) (by decide)⟩

theorem nodeAt_snoc_len {a : List MNode} {x : MNode} {n : Nat} (h : n = a.length) :
    nodeAt (a ++ [x]) n = x := by
  rw [h]; exact nodeAt_append_self a x

theorem mmd_add_parent_spec (a : List MNode) (p : Nat) (ty : MType) (ws : Bool)
    (t u : Option String) (hp : p < a.length) :
    (mmd_add a (some p) ty ws t u).2 = a.length ∧
    (mmd_add a (some p) ty ws t u).1.length = a.length + 1 ∧
    nodeAt (mmd_add a (some p) ty ws t u).1 a.length =
      { type := ty, whitespace := ws, text := t, url := u, parent := some p,
        prev_sibling := (nodeAt a p).last_child } ∧
    (nodeAt (mmd_add a (some p) ty ws t u).1 p).last_child = some a.length := by
  unfold mmd_add
  cases hlc : (nodeAt a p).last_child with
  | none =>
    simp only [hlc]
    refine ⟨trivial, by simp [length_setNode], ?_, ?_⟩
    · exact nodeAt_snoc_len (length_setNode a p _).symm
    · rw [nodeAt_append_lt (by rw [length_setNode]; exact hp), nodeAt_set_self hp]
  | some lc =>
    simp only [hlc]
    have hl1 := length_setNode a lc (fun n => { n with next_sibling := some a.length })
    have he : a.length = (setNode (setNode a lc fun n => { n with next_sibling := some a.length })
        p fun n => { n with last_child := some a.length }).length := by
      rw [length_setNode, hl1]
    have hp2 : p < (setNode (setNode a lc fun n => { n with next_sibling := some a.length })
        p fun n => { n with last_child := some a.length }).length := by
      rw [length_setNode, hl1]; exact hp
    refine ⟨trivial, by simp [length_setNode], ?_, ?_⟩
    · exact nodeAt_snoc_len he
    · rw [nodeAt_append_lt hp2, nodeAt_set_self (by rw [hl1]; exact hp)]

/-- C7, amended: outside any active block, a line with fewer than four
    columns of leading whitespace whose first three characters are the same
    marker from `-`, `*`, `_` repeated, followed only by that marker and
    whitespace up to end of line, and which is not the document-start
    metadata opener, produces exactly one thematic-break node appended as the
    context's new last child; whitespace may not appear between the first
    three markers.  Concretely `***` as first line, and `--- - -` after a
    closed paragraph, each yield one thematic break. -/
theorem thematic_break_line_rule :
    (∀ (st : LoadState) (line : List Char) (lines : List (List Char)) (pos : Nat) (ch : Char),
      st.block = none →
      st.current < st.doc.nodes.length →
      (ch = '-' ∨ ch = '*' ∨ ch = '_') →
      skipWs (bufOf line) 0 < 4 →
      strncmp3 (bufOf line) (skipWs (bufOf line) 0) ch →
      bufget (bufOf line) (themSkip (bufOf line) (skipWs (bufOf line) 0 + 3) ch) = nulc →
      (ch = '-' → (nodeAt st.doc.nodes 0).first_child ≠ none) →
      (mmd_load_step st line lines pos).2 = pos ∧
      (mmd_load_step st line lines pos).1.block = none ∧
      (mmd_load_step st line lines pos).1.current = st.current ∧
      (mmd_load_step st line lines pos).1.doc.nodes.length = st.doc.nodes.length + 1 ∧
      nodeAt (mmd_load_step st line lines pos).1.doc.nodes st.doc.nodes.length =
        { type := .THEMATIC_BREAK, parent := some st.current,
          prev_sibling := (nodeAt st.doc.nodes st.current).last_child } ∧
      (nodeAt (mmd_load_step st line lines pos).1.doc.nodes st.current).last_child =
        some st.doc.nodes.length ∧
      countType (mmd_load_step st line lines pos).1.doc .THEMATIC_BREAK =
        countType st.doc .THEMATIC_BREAK + 1) ∧
    countType (mmdLoadFile ["***\n"]) .THEMATIC_BREAK = 1 ∧
    countType (mmdLoadFile ["x\n", "\n", "--- - -\n"]) .THEMATIC_BREAK = 1 := by
  refine ⟨?_, by decide, by decide⟩
  intro st line lines pos ch hb hcur hch h4 h3 hrun hmeta
  have hnb : bufget (bufOf line) (skipWs (bufOf line) 0) ≠ backtickC := by
    rw [h3.1]
    rcases hch with rfl | rfl | rfl <;> decide
  have hstep : mmd_load_step st line lines pos =
      ({ st with
          doc := (mmd_addD st.doc (some st.current) .THEMATIC_BREAK false none none).1
          block := none },
        pos) := by
    unfold mmd_load_step
    rw [if_neg (fun hx => absurd hx.1 (by omega))]
    rw [if_neg (fun hx => hnb hx.1)]
    unfold mmd_line_mid
    rw [hb]
    unfold mmd_line_mid2
    rw [if_neg (fun hx => (hmeta (h3.1.symm.trans hx.1.1)) hx.2)]
    have hthem : st.block = none ∧
        (strncmp3 (bufOf line) (skipWs (bufOf line) 0) '-' ∨
         strncmp3 (bufOf line) (skipWs (bufOf line) 0) '*' ∨
         strncmp3 (bufOf line) (skipWs (bufOf line) 0) '_') := by
      refine ⟨hb, ?_⟩
      rcases hch with rfl | rfl | rfl
      · exact Or.inl h3
      · exact Or.inr (Or.inl h3)
      · exact Or.inr (Or.inr h3)
    rw [if_pos hthem, h3.1, if_pos hrun]
  rw [hstep]
  have hadd := mmd_add_parent_spec st.doc.nodes st.current .THEMATIC_BREAK false none none hcur
  have hcnt := countType_addD st.doc (some st.current) .THEMATIC_BREAK false none none
    .THEMATIC_BREAK
  refine ⟨rfl, rfl, rfl, hadd.2.1, hadd.2.2.1, hadd.2.2.2, ?_⟩
  rw [hcnt]
  simp

/-- Witness for C7: the line `***` processed in the initial state appends one
    thematic-break node under the document root. -/
theorem thematic_break_line_rule_witness :
    initLoadState.block = none ∧
    initLoadState.current < initLoadState.doc.nodes.length ∧
    (mmd_load_step initLoadState "***\n".data [] 1).2 = 1 ∧
    countType (mmd_load_step initLoadState "***\n".data [] 1).1.doc .THEMATIC_BREAK =
      countType initLoadState.doc .THEMATIC_BREAK + 1 :=
  have h := thematic_break_line_rule.1 initLoadState "***\n".data [] 1 '*'
    (by decide) (by decide) (Or.inr (Or.inl rfl)) (by decide) (by decide) (by decide)
    (fun hx => absurd hx (by decide))
  ⟨by decide, by decide, h.1, h.2.2.2.2.2.2⟩

theorem copyAppend_fields (oracle : Nat → Bool) (n : MNode) (allsize : Nat)
    (all : Option String) (k : Nat) :
    copyAppend oracle n allsize all k =
      copyAppend oracle { text := n.text, whitespace := n.whitespace } allsize all k := by
  unfold copyAppend
  cases n.text <;> rfl

theorem copyLoop_suffix (oracle : Nat → Bool) (a : List MNode) (node : Nat)
    (kids : List Nat) (hcs : ChildSpec a node kids) :
    ∀ (rest : List Nat) (idx c : Nat), kids.drop idx = c :: rest →
      ∀ (fuel allsize : Nat) (all : Option String) (k : Nat), rest.length + 2 ≤ fuel →
        mmdCopyLoop oracle a node fuel allsize all k (some c) =
          specWalk oracle (childTexts a (c :: rest)) allsize all k := by
  obtain ⟨hnode, hnotmem, hnodup, hbound, hfc, hlc, hidxf⟩ := hcs
  intro rest
  induction rest with
  | nil =>
    intro idx c hdrop fuel allsize all k hf
    have hget : kids[idx]? = some c := by
      have h0 := List.getElem?_drop kids idx 0
      rw [hdrop] at h0
      simpa using h0.symm
    have hcd : kids.getD idx 0 = c := by
      rw [List.getD_eq_getElem?_getD, hget]; rfl
    have hidx : idx < kids.length := by
      by_contra hx
      rw [List.getElem?_eq_none (by omega)] at hget
      cases hget
    have hmemc : c ∈ kids := List.getElem?_mem hget
    have hcne : ¬ (some c = some node) := by
      intro he
      exact hnotmem (by cases he; exact hmemc)
    have hfacts := hidxf idx (List.mem_range.mpr hidx)
    rw [hcd] at hfacts
    have hns : (nodeAt a c).next_sibling = none := by
      rw [hfacts.2.1]
      have h1 := List.getElem?_drop kids idx 1
      rw [hdrop] at h1
      simpa using h1.symm
    have hnext : mmdCopyNext a node c = some node := by
      unfold mmdCopyNext
      have h2 : mmdGetNextSibling a (some c) = none := hns
      rw [h2]
      have h3 : mmdGetParent a (some c) = some node := hfacts.1
      rw [h3]
      simp only [copyClimbAux]
      simp
    obtain ⟨f1, rfl⟩ : ∃ f1, fuel = f1 + 1 := ⟨fuel - 1, by omega⟩
    obtain ⟨f2, rfl⟩ : ∃ f2, f1 = f2 + 1 := ⟨f1 - 1, by omega⟩
    simp only [mmdCopyLoop]
    rw [if_neg hcne]
    rw [copyAppend_fields]
    simp only [childTexts, List.filterMap_cons, List.filterMap_nil]
    cases htxt : (nodeAt a c).text with
    | none =>
      simp only [specWalk, copyAppend, hnext]
      simp [mmdCopyLoop]
    | some txt =>
      simp only [specWalk, hnext]
      cases happ : copyAppend oracle
          { text := some txt, whitespace := (nodeAt a c).whitespace } allsize all k with
      | none => rfl
      | some v =>
        obtain ⟨as1, al1, k1⟩ := v
        simp [mmdCopyLoop]
  | cons r rest2 ih =>
    intro idx c hdrop fuel allsize all k hf
    have hget : kids[idx]? = some c := by
      have h0 := List.getElem?_drop kids idx 0
      rw [hdrop] at h0
      simpa using h0.symm
    have hcd : kids.getD idx 0 = c := by
      rw [List.getD_eq_getElem?_getD, hget]; rfl
    have hidx : idx < kids.length := by
      by_contra hx
      rw [List.getElem?_eq_none (by omega)] at hget
      cases hget
    have hmemc : c ∈ kids := List.getElem?_mem hget
    have hcne : ¬ (some c = some node) := by
      intro he
      exact hnotmem (by cases he; exact hmemc)
    have hfacts := hidxf idx (List.mem_range.mpr hidx)
    rw [hcd] at hfacts
    have hns : (nodeAt a c).next_sibling = some r := by
      rw [hfacts.2.1]
      have h1 := List.getElem?_drop kids idx 1
      rw [hdrop] at h1
      simpa using h1.symm
    have hnext : mmdCopyNext a node c = some r := by
      unfold mmdCopyNext
      have h2 : mmdGetNextSibling a (some c) = some r := hns
      rw [h2]
    have hdrop1 : kids.drop (idx + 1) = r :: rest2 := by
      have h4 := List.tail_drop kids idx
      rw [hdrop] at h4
      simpa using h4.symm
    obtain ⟨f1, rfl⟩ : ∃ f1, fuel = f1 + 1 := ⟨fuel - 1, by omega⟩
    simp only [mmdCopyLoop]
    rw [if_neg hcne]
    rw [copyAppend_fields]
    simp only [childTexts, List.filterMap_cons]
    cases htxt : (nodeAt a c).text with
    | none =>
      simp only [copyAppend, hnext]
      have hih := ih (idx + 1) r hdrop1 f1 allsize all k (by simp at hf ⊢; omega)
      rw [hih]
      simp [childTexts, List.filterMap_cons]
    | some txt =>
      simp only [specWalk, hnext]
      cases happ : copyAppend oracle
          { text := some txt, whitespace := (nodeAt a c).whitespace } allsize all k with
      | none => rfl
      | some v =>
        obtain ⟨as1, al1, k1⟩ := v
        dsimp only
        have hih := ih (idx + 1) r hdrop1 f1 as1 al1 k1 (by simp at hf ⊢; omega)
        rw [hih]
        simp [childTexts, List.filterMap_cons]

theorem copyAllText_eq_specWalk (oracle : Nat → Bool) (a : List MNode) (node : Nat)
    (kids : List Nat) (hcs : ChildSpec a node kids) (hne : kids ≠ []) :
    mmdCopyAllText oracle a node = specWalk oracle (childTexts a kids) 0 none 0 := by
  obtain ⟨c, rest, rfl⟩ : ∃ c rest, kids = c :: rest := by
    cases kids with
    | nil => exact absurd rfl hne
    | cons c rest => exact ⟨c, rest, rfl⟩
  unfold mmdCopyAllText
  have hfc : mmdGetFirstChild a (some node) = some c := by
    show (nodeAt a node).first_child = some c
    rw [hcs.2.2.2.2.1]
    rfl
  rw [hfc]
  have hlen : (c :: rest).length ≤ a.length :=
    nodup_bounded_length hcs.2.2.1 hcs.2.2.2.1
  exact copyLoop_suffix oracle a node (c :: rest) hcs rest 0 c rfl (a.length + 2) 0 none 0
    (by simp at hlen; omega)

theorem specWalk_opt_fold (l : List (Bool × String)) :
    ∀ (allsize : Nat) (all : Option String) (k : Nat), (allsize = 0 ↔ all = none) →
      specWalk alwaysAlloc l allsize all k =
        .ret (l.foldl (fun acc p => some (acc.getD "" ++ (if p.1 then " " else "") ++ p.2)) all) := by
  induction l with
  | nil => intro allsize all k _; rfl
  | cons p l ih =>
    intro allsize all k hinv
    obtain ⟨w, txt⟩ := p
    simp only [specWalk, copyAppend, List.foldl_cons]
    by_cases hz : allsize = 0
    · have hall : all = none := hinv.mp hz
      subst hall
      rw [if_pos hz]
      simp only [alwaysAlloc, if_true]
      dsimp only
      rw [ih _ _ _ (by simp)]
      simp
    · rw [if_neg hz]
      simp only [alwaysAlloc, if_true]
      dsimp only
      rw [ih _ _ _ (by simp; intro h; exact absurd h hz)]

theorem foldl_opt_str (l : List (Bool × String)) :
    ∀ (s : String),
      l.foldl (fun acc p => some (acc.getD "" ++ (if p.1 then " " else "") ++ p.2)) (some s) =
        some (l.foldl (fun acc p => acc ++ (if p.1 then " " else "") ++ p.2) s) := by
  induction l with
  | nil => intro s; rfl
  | cons p l ih => intro s; simp only [List.foldl_cons, Option.getD_some]; exact ih _

theorem foldl_opt_catTexts (l : List (Bool × String)) :
    l.foldl (fun acc p => some (acc.getD "" ++ (if p.1 then " " else "") ++ p.2)) none =
      (if l = [] then none else some (catTexts l)) := by
  cases l with
  | nil => rfl
  | cons p l =>
    simp only [List.foldl_cons, Option.getD_none, reduceIte, catTexts]
    exact foldl_opt_str l _

/-- C3, amended: for every node with at least one child (given by its
    consistent child chain `kids`), `mmdCopyAllText` under a never-failing
    allocator returns NULL when no direct child carries text, and otherwise
    the concatenation, in sibling order, of the text of the node's direct
    children that carry text, inserting one space before each text piece
    whose whitespace flag is set — including the first; the walk never
    descends to grandchildren.  Over the children `Hello` and `world` it
    yields `Hello world` when the second child has whitespace set and
    `Helloworld` otherwise. -/
theorem copyAllText_children_concatenation :
    (∀ (a : List MNode) (node : Nat) (kids : List Nat),
      ChildSpec a node kids → kids ≠ [] →
      mmdCopyAllText alwaysAlloc a node =
        .ret (if childTexts a kids = [] then none else some (catTexts (childTexts a kids)))) ∧
    mmdCopyAllText alwaysAlloc (helloWorldArena true) 0 = .ret (some "Hello world") ∧
    mmdCopyAllText alwaysAlloc (helloWorldArena false) 0 = .ret (some "Helloworld") := by
  refine ⟨?_, by decide, by decide⟩
  intro a node kids hcs hne
  rw [copyAllText_eq_specWalk alwaysAlloc a node kids hcs hne]
  rw [specWalk_opt_fold (childTexts a kids) 0 none 0 (by simp)]
  rw [foldl_opt_catTexts]

/-- Witness for C3 at the `Hello world` arena: its child chain satisfies the
    link conditions and the collected text is `Hello world`. -/
theorem copyAllText_children_concatenation_witness :
    ChildSpec (helloWorldArena true) 0 [1, 2] ∧
    mmdCopyAllText alwaysAlloc (helloWorldArena true) 0 =
      .ret (if childTexts (helloWorldArena true) [1, 2] = [] then none
            else some (catTexts (childTexts (helloWorldArena true) [1, 2]))) ∧
    catTexts (childTexts (helloWorldArena true) [1, 2]) = "Hello world" :=
  ⟨by decide,
    copyAllText_children_concatenation.1 (helloWorldArena true) 0 [1, 2] (by decide)
      (by decide),
    by decide⟩

/-- C4, amended: the NULL result of `mmdCopyAllText` does not separate the
    two cases: for a node with children none of which carries text the result
    is NULL under every allocator (no allocation is even attempted), and for
    a node with a text-carrying child the result is NULL as soon as
    allocation fails — the same value in both cases. -/
theorem copyAllText_null_cases :
    (∀ (a : List MNode) (node : Nat) (kids : List Nat) (oracle : Nat → Bool),
      ChildSpec a node kids → kids ≠ [] → childTexts a kids = [] →
      mmdCopyAllText oracle a node = .ret none) ∧
    (∀ (a : List MNode) (node : Nat) (kids : List Nat),
      ChildSpec a node kids → kids ≠ [] → childTexts a kids ≠ [] →
      mmdCopyAllText neverAlloc a node = .ret none) := by
  constructor
  · intro a node kids oracle hcs hne hct
    rw [copyAllText_eq_specWalk oracle a node kids hcs hne, hct]
    rfl
  · intro a node kids hcs hne hct
    rw [copyAllText_eq_specWalk neverAlloc a node kids hcs hne]
    obtain ⟨p, l, hpl⟩ : ∃ p l, childTexts a kids = p :: l := by
      cases hcl : childTexts a kids with
      | nil => exact absurd hcl hct
      | cons p l => exact ⟨p, l, rfl⟩
    rw [hpl]
    rfl

/-- Witness for C4: the no-text arena gives NULL under the always-succeeding
    allocator and the text arena gives NULL under the failing allocator. -/
theorem copyAllText_null_cases_witness :
    ChildSpec noTextArena 0 [1] ∧ childTexts noTextArena [1] = [] ∧
    mmdCopyAllText alwaysAlloc noTextArena 0 = .ret none ∧
    ChildSpec textArena 0 [1] ∧ childTexts textArena [1] ≠ [] ∧
    mmdCopyAllText neverAlloc textArena 0 = .ret none :=
  ⟨by decide, by decide,
    copyAllText_null_cases.1 noTextArena 0 [1] alwaysAlloc (by decide) (by decide) (by decide),
    by decide, by decide,
    copyAllText_null_cases.2 textArena 0 [1] (by decide) (by decide) (by decide)⟩

theorem chain_congr {a a2 : List MNode} {p : Nat} :
    ∀ {pr cu : Option Nat} {l : List Nat}, Chain a p pr cu l →
      (∀ j ∈ l, sibEq a a2 j) → Chain a2 p pr cu l := by
  intro pr cu l hch
  induction hch with
  | nil pr => intro _; exact Chain.nil pr
  | @cons pr c rest hpar hprev hrest ih =>
    intro hsib
    have hc := hsib c (by simp)
    refine Chain.cons ?_ ?_ ?_
    · rw [hc.1]; exact hpar
    · rw [hc.2.1]; exact hprev
    · rw [hc.2.2]
      exact ih (fun j hj => hsib j (by simp [hj]))

theorem chain_mem_parent {a : List MNode} {p : Nat} :
    ∀ {pr cu : Option Nat} {l : List Nat}, Chain a p pr cu l →
      ∀ j ∈ l, (nodeAt a j).parent = some p := by
  intro pr cu l hch
  induction hch with
  | nil pr => intro j hj; cases hj
  | @cons pr c rest hpar hprev hrest ih =>
    intro j hj
    cases List.mem_cons.mp hj with
    | inl he => rw [he]; exact hpar
    | inr hm => exact ih j hm

theorem chain_nil_inv {a : List MNode} {p : Nat} {pr cu : Option Nat}
    (h : Chain a p pr cu []) : cu = none := by
  cases h; rfl

theorem chain_cons_inv {a : List MNode} {p c : Nat} {pr cu : Option Nat}
    {rest : List Nat} (h : Chain a p pr cu (c :: rest)) :
    cu = some c ∧ (nodeAt a c).parent = some p ∧
    (nodeAt a c).prev_sibling = pr ∧
    Chain a p (some c) (nodeAt a c).next_sibling rest := by
  cases h with
  | cons hpar hprev hrest => exact ⟨rfl, hpar, hprev, hrest⟩

theorem chain_next_val {a : List MNode} {p n : Nat} :
    ∀ (L : List Nat) {pr cu : Option Nat} {R : List Nat},
      Chain a p pr cu (L ++ n :: R) → (nodeAt a n).next_sibling = R.head? := by
  intro L
  induction L with
  | nil =>
    intro pr cu R hch
    obtain ⟨hcu, hpar, hprev, hrest⟩ := chain_cons_inv hch
    cases R with
    | nil => exact chain_nil_inv hrest
    | cons r R2 => exact (chain_cons_inv hrest).1
  | cons c L2 ih =>
    intro pr cu R hch
    obtain ⟨hcu, hpar, hprev, hrest⟩ := chain_cons_inv hch
    exact ih hrest

theorem chain_prev_val {a : List MNode} {p n : Nat} :
    ∀ (L : List Nat) {pr cu : Option Nat} {R : List Nat},
      Chain a p pr cu (L ++ n :: R) →
      (L = [] ∧ (nodeAt a n).prev_sibling = pr) ∨
      (∃ q, L.getLast? = some q ∧ (nodeAt a n).prev_sibling = some q) := by
  intro L
  induction L with
  | nil =>
    intro pr cu R hch
    cases hch with
    | cons hpar hprev hrest => exact Or.inl ⟨rfl, hprev⟩
  | cons c L2 ih =>
    intro pr cu R hch
    cases hch with
    | cons hpar hprev hrest =>
      right
      cases ih hrest with
      | inl h =>
        obtain ⟨he, hp⟩ := h
        subst he
        exact ⟨c, rfl, hp⟩
      | inr h =>
        obtain ⟨q, hq, hp⟩ := h
        refine ⟨q, ?_, hp⟩
        cases L2 with
        | nil => simp at hq
        | cons x xs => rw [List.getLast?_cons_cons]; exact hq

theorem chain_snoc {a a2 : List MNode} {p nid lc : Nat} :
    ∀ {pr cu : Option Nat} {l : List Nat}, Chain a p pr cu l →
      l.getLast? = some lc → l.Nodup →
      (∀ j ∈ l, j ≠ lc → sibEq a a2 j) →
      (nodeAt a2 lc).parent = (nodeAt a lc).parent →
      (nodeAt a2 lc).prev_sibling = (nodeAt a lc).prev_sibling →
      (nodeAt a2 lc).next_sibling = some nid →
      (nodeAt a2 nid).parent = some p →
      (nodeAt a2 nid).prev_sibling = some lc →
      (nodeAt a2 nid).next_sibling = none →
      Chain a2 p pr cu (l ++ [nid]) := by
  intro pr cu l hch
  induction hch with
  | nil pr => intro hlast; simp at hlast
  | @cons pr c rest hpar hprev hrest ih =>
    intro hlast hnd hsib hlcp hlcprev hlcnext hnp hnprev hnnext
    by_cases hr : rest = []
    · subst hr
      have hceq : c = lc := by simpa using hlast
      subst hceq
      refine Chain.cons ?_ ?_ ?_
      · rw [hlcp]; exact hpar
      · rw [hlcprev]; exact hprev
      · rw [hlcnext]
        refine Chain.cons hnp hnprev ?_
        rw [hnnext]
        exact Chain.nil _
    · have hlast2 : rest.getLast? = some lc := by
        cases rest with
        | nil => exact absurd rfl hr
        | cons x xs => rw [← hlast, List.getLast?_cons_cons]
      have hlcmem : lc ∈ rest := by
        obtain ⟨h, he⟩ := List.mem_getLast?_eq_getLast (Option.mem_def.mpr hlast2)
        exact he ▸ List.getLast_mem h
      have hcne : c ≠ lc := by
        intro he
        exact (List.nodup_cons.mp hnd).1 (he ▸ hlcmem)
      have hcsib := hsib c (by simp) hcne
      refine Chain.cons ?_ ?_ ?_
      · rw [hcsib.1]; exact hpar
      · rw [hcsib.2.1]; exact hprev
      · rw [hcsib.2.2]
        exact ih hlast2 (List.nodup_cons.mp hnd).2
          (fun j hj hjne => hsib j (by simp [hj]) hjne)
          hlcp hlcprev hlcnext hnp hnprev hnnext

theorem chain_splice {a a2 : List MNode} {p n : Nat}
    (hfields : ∀ j, j ≠ n →
      (nodeAt a2 j).parent = (nodeAt a j).parent ∧
      (nodeAt a2 j).prev_sibling =
        (if (nodeAt a n).next_sibling = some j then (nodeAt a n).prev_sibling
         else (nodeAt a j).prev_sibling) ∧
      (nodeAt a2 j).next_sibling =
        (if (nodeAt a n).prev_sibling = some j then (nodeAt a n).next_sibling
         else (nodeAt a j).next_sibling)) :
    ∀ (L : List Nat) {pr cu : Option Nat} {R : List Nat},
      Chain a p pr cu (L ++ n :: R) → (L ++ n :: R).Nodup →
      (∀ q, pr = some q → q ∉ n :: R) →
      Chain a2 p pr (if L = [] then (nodeAt a n).next_sibling else cu) (L ++ R) := by
  intro L
  induction L with
  | nil =>
    intro pr cu R hch hnd hprR
    obtain ⟨hcu, hpar, hprev, hrest⟩ := chain_cons_inv hch
    rw [if_pos rfl]
    show Chain a2 p pr (nodeAt a n).next_sibling R
    cases R with
    | nil =>
      rw [chain_nil_inv hrest]
      exact Chain.nil _
    | cons r R2 =>
      obtain ⟨hcu2, hpar2, hprev2, hrest2⟩ := chain_cons_inv hrest
      rw [hcu2]
      have hrne : r ≠ n := by
        intro he
        subst he
        exact (List.nodup_cons.mp hnd).1 (by simp)
      have hf := hfields r hrne
      refine Chain.cons ?_ ?_ ?_
      · rw [hf.1]; exact hpar2
      · rw [hf.2.1, if_pos hcu2]; exact hprev
      · rw [hf.2.2]
        have hnpr : (nodeAt a n).prev_sibling ≠ some r := by
          rw [hprev]
          intro he
          exact hprR r he (by simp)
        rw [if_neg hnpr]
        refine chain_congr hrest2 ?_
        intro j hj
        have hjne : j ≠ n := by
          intro he
          subst he
          exact (List.nodup_cons.mp hnd).1 (by simp [hj])
        have hfj := hfields j hjne
        have hnnj : (nodeAt a n).next_sibling ≠ some j := by
          rw [hcu2]
          intro he
          have hrj : r = j := Option.some.inj he
          subst hrj
          exact (List.nodup_cons.mp (List.nodup_cons.mp hnd).2).1 hj
        have hnpj : (nodeAt a n).prev_sibling ≠ some j := by
          rw [hprev]
          intro he
          exact hprR j he (by simp [hj])
        exact ⟨hfj.1, by rw [hfj.2.1, if_neg hnnj], by rw [hfj.2.2, if_neg hnpj]⟩
  | cons c L2 ih =>
    intro pr cu R hch hnd hprR
    obtain ⟨hcu, hpar, hprev, hrest⟩ := chain_cons_inv hch
    rw [if_neg (by simp : ¬(c :: L2 = []))]
    rw [hcu]
    have hnd2 : (c :: (L2 ++ n :: R)).Nodup := hnd
    have hcnotin : c ∉ L2 ++ n :: R := (List.nodup_cons.mp hnd2).1
    have hcne : c ≠ n := by
      intro he
      exact hcnotin (by simp [he])
    have hf := hfields c hcne
    have hnext := chain_next_val L2 hrest
    refine Chain.cons ?_ ?_ ?_
    · rw [hf.1]; exact hpar
    · rw [hf.2.1]
      have hnnc : (nodeAt a n).next_sibling ≠ some c := by
        rw [hnext]
        cases R with
        | nil => simp
        | cons r R2 =>
          simp only [List.head?_cons]
          intro he
          have hrc : r = c := Option.some.inj he
          subst hrc
          exact hcnotin (by simp)
      rw [if_neg hnnc]
      exact hprev
    · rw [hf.2.2]
      have hprc : ∀ q, (some c : Option Nat) = some q → q ∉ n :: R := by
        intro q hq hmem
        have hqc : c = q := Option.some.inj hq
        subst hqc
        exact hcnotin (List.mem_append_right _ hmem)
      have hih := ih hrest (List.nodup_cons.mp hnd2).2 hprc
      rcases chain_prev_val L2 hrest with ⟨hL2nil, hp⟩ | ⟨q, hq, hp⟩
      · subst hL2nil
        rw [if_pos hp]
        simpa using hih
      · have hL2ne : L2 ≠ [] := by
          intro he
          subst he
          simp at hq
        have hqmem : q ∈ L2 := by
          obtain ⟨h, he⟩ := List.mem_getLast?_eq_getLast (Option.mem_def.mpr hq)
          exact he ▸ List.getLast_mem h
        have hnpc : (nodeAt a n).prev_sibling ≠ some c := by
          rw [hp]
          intro he
          have hqc : q = c := Option.some.inj he
          subst hqc
          exact hcnotin (List.mem_append_left _ hqmem)
        rw [if_neg hnpc]
        rw [if_neg hL2ne] at hih
        exact hih

theorem mmd_add_view (a : List MNode) (p : Nat) (ty : MType) (ws : Bool)
    (t u : Option String) (hp : p < a.length)
    (hlcp : (nodeAt a p).last_child ≠ some p)
    (hlcr : ∀ lc, (nodeAt a p).last_child = some lc → lc < a.length) :
    (mmd_add a (some p) ty ws t u).1.length = a.length + 1 ∧
    nodeAt (mmd_add a (some p) ty ws t u).1 a.length =
      { type := ty, whitespace := ws, text := t, url := u, parent := some p,
        prev_sibling := (nodeAt a p).last_child } ∧
    nodeAt (mmd_add a (some p) ty ws t u).1 p =
      { nodeAt a p with
        first_child := (if (nodeAt a p).last_child = none then some a.length
          else (nodeAt a p).first_child),
        last_child := some a.length } ∧
    (∀ lc, (nodeAt a p).last_child = some lc →
      nodeAt (mmd_add a (some p) ty ws t u).1 lc =
        { nodeAt a lc with next_sibling := some a.length }) ∧
    (∀ j, j ≠ p → (nodeAt a p).last_child ≠ some j → j ≠ a.length →
      nodeAt (mmd_add a (some p) ty ws t u).1 j = nodeAt a j) := by
  unfold mmd_add
  cases hlc : (nodeAt a p).last_child with
  | none =>
    simp only [hlc]
    refine ⟨by simp [length_setNode], ?_, ?_, ?_, ?_⟩
    · rw [nodeAt_snoc_len (length_setNode a p _).symm]
    · rw [nodeAt_append_lt (by rw [length_setNode]; exact hp), nodeAt_set_self hp]
      simp
    · intro lc hl; cases hl
    · intro j hjp hjl hjn
      by_cases hj : j < a.length
      · rw [nodeAt_append_lt (by rw [length_setNode]; exact hj),
          nodeAt_set_ne (fun he => hjp he.symm)]
      · rw [nodeAt_out (by simp [length_setNode]; omega),
          nodeAt_out (by omega)]
  | some lc =>
    have hlcne : lc ≠ p := fun he => hlcp (he ▸ hlc)
    simp only [hlc]
    have hl1 := length_setNode a lc (fun n => { n with next_sibling := some a.length })
    have hl2 := length_setNode (setNode a lc (fun n => { n with next_sibling := some a.length }))
      p (fun n => { n with last_child := some a.length })
    refine ⟨by simp [length_setNode], ?_, ?_, ?_, ?_⟩
    · rw [nodeAt_snoc_len (by rw [hl2, hl1])]
    · rw [nodeAt_append_lt (by rw [hl2, hl1]; exact hp),
        nodeAt_set_self (by rw [hl1]; exact hp), nodeAt_set_ne hlcne]
      simp [hlc]
    · intro lc2 hl2e
      have hle : lc2 = lc := (Option.some.inj hl2e).symm
      subst hle
      have hlcl : lc2 < a.length := hlcr lc2 hlc
      rw [nodeAt_append_lt (by rw [hl2, hl1]; exact hlcl),
        nodeAt_set_ne (fun he => hlcne he.symm), nodeAt_set_self hlcl]
    · intro j hjp hjl hjn
      have hjlc : j ≠ lc := fun he => hjl (congrArg some he.symm)
      by_cases hj : j < a.length
      · rw [nodeAt_append_lt (by rw [hl2, hl1]; exact hj),
          nodeAt_set_ne (fun he => hjp he.symm),
          nodeAt_set_ne (fun he => hjlc he.symm)]
      · rw [nodeAt_out (by simp [length_setNode]; omega),
          nodeAt_out (by omega)]

theorem mem_of_getLast?_eq {α : Type} {l : List α} {x : α}
    (h : l.getLast? = some x) : x ∈ l := by
  obtain ⟨hne, he⟩ := List.mem_getLast?_eq_getLast (Option.mem_def.mpr h)
  exact he ▸ List.getLast_mem hne

theorem consistent_add {a : List MNode} {kids : Nat → List Nat}
    (inv : ArenaInv a kids) {p : Nat} (hp : p < a.length)
    (ty : MType) (ws : Bool) (t u : Option String) :
    ArenaInv (mmd_add a (some p) ty ws t u).1
      (fun i => if i = p then kids p ++ [a.length] else kids i) := by
  have hmemlt : ∀ i j, j ∈ kids i → j < a.length := fun i j hj => ((inv.mem i j).mp hj).1
  have hmempar : ∀ i j, j ∈ kids i → (nodeAt a j).parent = some i :=
    fun i j hj => ((inv.mem i j).mp hj).2
  have hlcp : (nodeAt a p).last_child ≠ some p := by
    rw [inv.lastC p hp]
    intro he
    exact inv.noSelf p (mem_of_getLast?_eq he)
  have hlcr : ∀ lc, (nodeAt a p).last_child = some lc → lc < a.length := by
    intro lc he
    rw [inv.lastC p hp] at he
    exact hmemlt p lc (mem_of_getLast?_eq he)
  obtain ⟨hlen, hnew, hpnode, hlcnode, hother⟩ := mmd_add_view a p ty ws t u hp hlcp hlcr
  have hpar2 : ∀ j, j < a.length →
      (nodeAt (mmd_add a (some p) ty ws t u).1 j).parent = (nodeAt a j).parent := by
    intro j hj
    by_cases hjp : j = p
    · subst hjp
      rw [hpnode]
    · by_cases hjl : (nodeAt a p).last_child = some j
      · rw [hlcnode j hjl]
      · rw [hother j hjp hjl (by omega)]
  have hsib2 : ∀ j, j < a.length → (nodeAt a p).last_child ≠ some j →
      sibEq a (mmd_add a (some p) ty ws t u).1 j := by
    intro j hj hjl
    by_cases hjp : j = p
    · subst hjp
      exact ⟨by rw [hpnode], by rw [hpnode], by rw [hpnode]⟩
    · have ho := hother j hjp hjl (by omega)
      exact ⟨by rw [ho], by rw [ho], by rw [ho]⟩
  have hfc2 : ∀ j, j < a.length → j ≠ p →
      (nodeAt (mmd_add a (some p) ty ws t u).1 j).first_child = (nodeAt a j).first_child := by
    intro j hj hjp
    by_cases hjl : (nodeAt a p).last_child = some j
    · rw [hlcnode j hjl]
    · rw [hother j hjp hjl (by omega)]
  have hkidsnid : kids a.length = [] :=
    List.eq_nil_iff_forall_not_mem.mpr (fun j hj =>
      absurd (inv.parentRange j (hmemlt _ j hj) a.length (hmempar _ j hj)) (by omega))
  refine ⟨?_, ?_, ?_, ?_, ?_, ?_, ?_⟩
  · intro i j
    rw [hlen]
    by_cases hip : p = i
    · subst hip
      simp only [if_pos rfl, ite_true, List.mem_append, List.mem_singleton]
      constructor
      · rintro (hjk | hje)
        · exact ⟨by have := hmemlt p j hjk; omega,
            by rw [hpar2 j (hmemlt p j hjk)]; exact hmempar p j hjk⟩
        · subst hje
          exact ⟨by omega, by rw [hnew]⟩
      · rintro ⟨hjlt, hjpar⟩
        by_cases hje : j = a.length
        · exact Or.inr hje
        · left
          have hjl : j < a.length := by omega
          rw [hpar2 j hjl] at hjpar
          exact (inv.mem p j).mpr ⟨hjl, hjpar⟩
    · have hip2 : ¬ i = p := fun he => hip he.symm
      simp only [if_neg hip2]
      constructor
      · intro hjk
        have hjl := hmemlt i j hjk
        exact ⟨by omega, by rw [hpar2 j hjl]; exact hmempar i j hjk⟩
      · rintro ⟨hjlt, hjpar⟩
        by_cases hje : j = a.length
        · subst hje
          rw [hnew] at hjpar
          exact (hip (Option.some.inj hjpar)).elim
        · have hjl : j < a.length := by omega
          rw [hpar2 j hjl] at hjpar
          exact (inv.mem i j).mpr ⟨hjl, hjpar⟩
  · intro i
    by_cases hip : p = i
    · subst hip
      simp only [if_pos rfl, ite_true]
      refine List.Nodup.append (inv.nodup p) (List.nodup_singleton _) ?_
      intro x hx hy
      rw [List.mem_singleton] at hy
      subst hy
      exact absurd (hmemlt p _ hx) (by omega)
    · have hip2 : ¬ i = p := fun he => hip he.symm
      simp only [if_neg hip2]
      exact inv.nodup i
  · intro i
    by_cases hip : p = i
    · subst hip
      simp only [if_pos rfl, ite_true, List.mem_append, List.mem_singleton]
      rintro (h | h)
      · exact inv.noSelf p h
      · omega
    · have hip2 : ¬ i = p := fun he => hip he.symm
      simp only [if_neg hip2]
      exact inv.noSelf i
  · intro i hi
    rw [hlen] at hi
    by_cases hip : p = i
    · subst hip
      simp only [if_pos rfl, ite_true]
      rw [hpnode, List.getLast?_concat]
    · have hip2 : ¬ i = p := fun he => hip he.symm
      simp only [if_neg hip2]
      by_cases hie : i = a.length
      · subst hie
        rw [hnew, hkidsnid]
        rfl
      · have hil : i < a.length := by omega
        by_cases hil2 : (nodeAt a p).last_child = some i
        · rw [hlcnode i hil2]
          show (nodeAt a i).last_child = (kids i).getLast?
          exact inv.lastC i hil
        · rw [hother i hip2 hil2 (by omega)]
          exact inv.lastC i hil
  · intro i hi
    rw [hlen] at hi
    by_cases hip : p = i
    · subst hip
      simp only [if_pos rfl, ite_true]
      cases hlc : (nodeAt a p).last_child with
      | none =>
        have hkp : kids p = [] := by
          have hl := inv.lastC p hp
          rw [hlc] at hl
          exact List.getLast?_eq_none_iff.mp hl.symm
        rw [hkp, List.nil_append, hpnode, hlc, if_pos rfl]
        refine Chain.cons ?_ ?_ ?_
        · rw [hnew]
        · rw [hnew, hlc]
        · rw [hnew]
          exact Chain.nil _
      | some lc =>
        have hch := inv.chain p hp
        rw [hpnode]
        have hfc : (if (nodeAt a p).last_child = none then some a.length
            else (nodeAt a p).first_child) = (nodeAt a p).first_child := by
          rw [hlc]
          rfl
        rw [hfc]
        refine @chain_snoc a (mmd_add a (some p) ty ws t u).1 p a.length lc _ _ _ hch ?_ (inv.nodup p) ?_ ?_ ?_ ?_ ?_ ?_ ?_
        · rw [← inv.lastC p hp]
          exact hlc
        · intro j hj hjlc
          refine hsib2 j (hmemlt p j hj) ?_
          rw [hlc]
          intro he
          exact hjlc (Option.some.inj he).symm
        · rw [hlcnode lc hlc]
        · rw [hlcnode lc hlc]
        · rw [hlcnode lc hlc]
        · rw [hnew]
        · rw [hnew, hlc]
        · rw [hnew]
    · have hip2 : ¬ i = p := fun he => hip he.symm
      simp only [if_neg hip2]
      by_cases hie : i = a.length
      · subst hie
        rw [hkidsnid, hnew]
        exact Chain.nil _
      · have hil : i < a.length := by omega
        rw [hfc2 i hil hip2]
        refine chain_congr (inv.chain i hil) ?_
        intro j hj
        refine hsib2 j (hmemlt i j hj) ?_
        intro he
        have hjm : j ∈ kids p := by
          rw [inv.lastC p hp] at he
          exact mem_of_getLast?_eq he
        have h1 := hmempar p j hjm
        have h2 := hmempar i j hj
        rw [h1] at h2
        exact hip2 (Option.some.inj h2).symm
  · intro j hj i hpar
    rw [hlen] at hj ⊢
    by_cases hje : j = a.length
    · subst hje
      rw [hnew] at hpar
      have hpi : p = i := Option.some.inj hpar
      omega
    · have hjl : j < a.length := by omega
      rw [hpar2 j hjl] at hpar
      have := inv.parentRange j hjl i hpar
      omega
  · intro j hj hpar
    rw [hlen] at hj
    by_cases hje : j = a.length
    · subst hje
      rw [hnew] at hpar
      exact Option.noConfusion hpar
    · have hjl : j < a.length := by omega
      rw [hpar2 j hjl] at hpar
      obtain ⟨h1, h2⟩ := inv.orphan j hjl hpar
      have hnl : (nodeAt a p).last_child ≠ some j := by
        intro hjl2
        have hjm : j ∈ kids p := by
          rw [inv.lastC p hp] at hjl2
          exact mem_of_getLast?_eq hjl2
        rw [hmempar p j hjm] at hpar
        exact Option.noConfusion hpar
      obtain ⟨hsp, hspr, hsn⟩ := hsib2 j hjl hnl
      exact ⟨by rw [hspr]; exact h1, by rw [hsn]; exact h2⟩

theorem mmd_remove_view (a : List MNode) (node p : Nat)
    (hpar : (nodeAt a node).parent = some p)
    (hplen : p < a.length) (hnlen : node < a.length) (hnp : node ≠ p)
    (hps : ∀ ps, (nodeAt a node).prev_sibling = some ps →
      ps < a.length ∧ ps ≠ p ∧ ps ≠ node)
    (hns : ∀ ns, (nodeAt a node).next_sibling = some ns →
      ns < a.length ∧ ns ≠ p ∧ ns ≠ node)
    (hdist : ∀ ps ns, (nodeAt a node).prev_sibling = some ps →
      (nodeAt a node).next_sibling = some ns → ps ≠ ns) :
    (mmd_remove a node).length = a.length ∧
    nodeAt (mmd_remove a node) node =
      { nodeAt a node with parent := none, prev_sibling := none, next_sibling := none } ∧
    nodeAt (mmd_remove a node) p =
      { nodeAt a p with
        first_child := (if (nodeAt a node).prev_sibling = none
          then (nodeAt a node).next_sibling else (nodeAt a p).first_child),
        last_child := (if (nodeAt a node).next_sibling = none
          then (nodeAt a node).prev_sibling else (nodeAt a p).last_child) } ∧
    (∀ ps, (nodeAt a node).prev_sibling = some ps →
      nodeAt (mmd_remove a node) ps =
        { nodeAt a ps with next_sibling := (nodeAt a node).next_sibling }) ∧
    (∀ ns, (nodeAt a node).next_sibling = some ns →
      nodeAt (mmd_remove a node) ns =
        { nodeAt a ns with prev_sibling := (nodeAt a node).prev_sibling }) ∧
    (∀ j, j ≠ node → j ≠ p → (nodeAt a node).prev_sibling ≠ some j →
      (nodeAt a node).next_sibling ≠ some j →
      nodeAt (mmd_remove a node) j = nodeAt a j) := by
  have hpn : p ≠ node := fun he => hnp he.symm
  cases hprev : (nodeAt a node).prev_sibling with
  | none =>
    cases hnext : (nodeAt a node).next_sibling with
    | none =>
      simp only [mmd_remove, hpar, hprev, hnext]
      refine ⟨by simp [length_setNode], ?_, ?_, ?_, ?_, ?_⟩
      · rw [nodeAt_set_self (by simp only [length_setNode]; exact hnlen),
          nodeAt_set_ne hpn, nodeAt_set_ne hpn]
      · rw [nodeAt_set_ne hnp,
          nodeAt_set_self (by simp only [length_setNode]; exact hplen),
          nodeAt_set_self hplen]
        rfl
      · intro ps hp2; exact Option.noConfusion hp2
      · intro ns hn2; exact Option.noConfusion hn2
      · intro j hj1 hj2 hj3 hj4
        rw [nodeAt_set_ne (fun he => hj1 he.symm),
          nodeAt_set_ne (fun he => hj2 he.symm),
          nodeAt_set_ne (fun he => hj2 he.symm)]
    | some ns =>
      obtain ⟨hnsl, hnsp, hnsn⟩ := hns ns hnext
      simp only [mmd_remove, hpar, hprev, hnext]
      refine ⟨by simp [length_setNode], ?_, ?_, ?_, ?_, ?_⟩
      · rw [nodeAt_set_self (by simp only [length_setNode]; exact hnlen),
          nodeAt_set_ne hnsn, nodeAt_set_ne hpn]
      · rw [nodeAt_set_ne hnp, nodeAt_set_ne hnsp,
          nodeAt_set_self hplen]
        rfl
      · intro ps hp2; exact Option.noConfusion hp2
      · intro ns2 hn2
        have hne : ns2 = ns := (Option.some.inj hn2).symm
        subst hne
        rw [nodeAt_set_ne (fun he => hnsn he.symm),
          nodeAt_set_self (by simp only [length_setNode]; exact hnsl),
          nodeAt_set_ne (fun he => hnsp he.symm)]
      · intro j hj1 hj2 hj3 hj4
        have hj5 : ns ≠ j := fun he => hj4 (congrArg some he)
        rw [nodeAt_set_ne (fun he => hj1 he.symm),
          nodeAt_set_ne hj5,
          nodeAt_set_ne (fun he => hj2 he.symm)]
  | some ps =>
    obtain ⟨hpsl, hpsp, hpsn⟩ := hps ps hprev
    cases hnext : (nodeAt a node).next_sibling with
    | none =>
      simp only [mmd_remove, hpar, hprev, hnext]
      refine ⟨by simp [length_setNode], ?_, ?_, ?_, ?_, ?_⟩
      · rw [nodeAt_set_self (by simp only [length_setNode]; exact hnlen),
          nodeAt_set_ne hpn, nodeAt_set_ne hpsn]
      · rw [nodeAt_set_ne hnp,
          nodeAt_set_self (by simp only [length_setNode]; exact hplen),
          nodeAt_set_ne hpsp]
        rfl
      · intro ps2 hp2
        have hpe : ps2 = ps := (Option.some.inj hp2).symm
        subst hpe
        rw [nodeAt_set_ne (fun he => hpsn he.symm),
          nodeAt_set_ne (fun he => hpsp he.symm),
          nodeAt_set_self hpsl]
      · intro ns hn2; exact Option.noConfusion hn2
      · intro j hj1 hj2 hj3 hj4
        have hj5 : ps ≠ j := fun he => hj3 (congrArg some he)
        rw [nodeAt_set_ne (fun he => hj1 he.symm),
          nodeAt_set_ne (fun he => hj2 he.symm),
          nodeAt_set_ne hj5]
    | some ns =>
      obtain ⟨hnsl, hnsp, hnsn⟩ := hns ns hnext
      have hpsns : ps ≠ ns := hdist ps ns hprev hnext
      simp only [mmd_remove, hpar, hprev, hnext]
      refine ⟨by simp [length_setNode], ?_, ?_, ?_, ?_, ?_⟩
      · rw [nodeAt_set_self (by simp only [length_setNode]; exact hnlen),
          nodeAt_set_ne hnsn, nodeAt_set_ne hpsn]
      · rw [nodeAt_set_ne hnp, nodeAt_set_ne hnsp, nodeAt_set_ne hpsp]
        rfl
      · intro ps2 hp2
        have hpe : ps2 = ps := (Option.some.inj hp2).symm
        subst hpe
        rw [nodeAt_set_ne (fun he => hpsn he.symm),
          nodeAt_set_ne (fun he => hpsns he.symm),
          nodeAt_set_self hpsl]
      · intro ns2 hn2
        have hne : ns2 = ns := (Option.some.inj hn2).symm
        subst hne
        rw [nodeAt_set_ne (fun he => hnsn he.symm),
          nodeAt_set_self (by simp only [length_setNode]; exact hnsl),
          nodeAt_set_ne hpsns]
      · intro j hj1 hj2 hj3 hj4
        have hj5 : ps ≠ j := fun he => hj3 (congrArg some he)
        have hj6 : ns ≠ j := fun he => hj4 (congrArg some he)
        rw [nodeAt_set_ne (fun he => hj1 he.symm),
          nodeAt_set_ne hj6, nodeAt_set_ne hj5]

theorem consistent_remove {a : List MNode} {kids : Nat → List Nat}
    (inv : ArenaInv a kids) {node : Nat} (hn : node < a.length) :
    (∃ kids2, ArenaInv (mmd_remove a node) kids2) ∧
    (nodeAt (mmd_remove a node) node).parent = none ∧
    (nodeAt (mmd_remove a node) node).prev_sibling = none ∧
    (nodeAt (mmd_remove a node) node).next_sibling = none := by
  have hmemlt : ∀ i j, j ∈ kids i → j < a.length := fun i j hj => ((inv.mem i j).mp hj).1
  have hmempar : ∀ i j, j ∈ kids i → (nodeAt a j).parent = some i :=
    fun i j hj => ((inv.mem i j).mp hj).2
  cases hpar : (nodeAt a node).parent with
  | none =>
    have heq : mmd_remove a node = a := by simp only [mmd_remove, hpar]
    rw [heq]
    exact ⟨⟨kids, inv⟩, hpar, (inv.orphan node hn hpar).1, (inv.orphan node hn hpar).2⟩
  | some p =>
    have hplen : p < a.length := inv.parentRange node hn p hpar
    have hmem : node ∈ kids p := (inv.mem p node).mpr ⟨hn, hpar⟩
    obtain ⟨L, R, hsplit⟩ := List.append_of_mem hmem
    have hnd : (L ++ node :: R).Nodup := by rw [← hsplit]; exact inv.nodup p
    obtain ⟨hndL, hndnR, hdisj⟩ := List.nodup_append.mp hnd
    have hnodR : node ∉ R := (List.nodup_cons.mp hndnR).1
    have hnodL : node ∉ L := fun h => hdisj h (List.mem_cons_self node R)
    have hnp : node ≠ p := fun he => inv.noSelf p (he ▸ hmem)
    have hch : Chain a p none (nodeAt a p).first_child (L ++ node :: R) := by
      rw [← hsplit]; exact inv.chain p hplen
    have hnext := chain_next_val L hch
    have hprevv := chain_prev_val L hch
    have hLkids : ∀ j, j ∈ L → j ∈ kids p := by
      intro j hj; rw [hsplit]; exact List.mem_append_left _ hj
    have hRkids : ∀ j, j ∈ R → j ∈ kids p := by
      intro j hj; rw [hsplit]; exact List.mem_append_right _ (List.mem_cons_of_mem _ hj)
    have hpsL : ∀ ps, (nodeAt a node).prev_sibling = some ps → ps ∈ L := by
      intro ps hpse
      rcases hprevv with ⟨hL, hpn2⟩ | ⟨q, hq, hp2⟩
      · rw [hpse] at hpn2; exact Option.noConfusion hpn2
      · rw [hp2] at hpse
        have hqe : q = ps := Option.some.inj hpse
        subst hqe
        exact mem_of_getLast?_eq hq
    have hnsR : ∀ ns, (nodeAt a node).next_sibling = some ns → ns ∈ R := by
      intro ns hnse
      rw [hnext] at hnse
      exact List.mem_of_mem_head? (Option.mem_def.mpr hnse)
    have hps : ∀ ps, (nodeAt a node).prev_sibling = some ps →
        ps < a.length ∧ ps ≠ p ∧ ps ≠ node := by
      intro ps hpse
      have hmL := hpsL ps hpse
      have hmk := hLkids ps hmL
      refine ⟨hmemlt p ps hmk, ?_, ?_⟩
      · intro he; exact inv.noSelf p (he ▸ hmk)
      · intro he; exact hnodL (he ▸ hmL)
    have hns : ∀ ns, (nodeAt a node).next_sibling = some ns →
        ns < a.length ∧ ns ≠ p ∧ ns ≠ node := by
      intro ns hnse
      have hmR := hnsR ns hnse
      have hmk := hRkids ns hmR
      refine ⟨hmemlt p ns hmk, ?_, ?_⟩
      · intro he; exact inv.noSelf p (he ▸ hmk)
      · intro he; exact hnodR (he ▸ hmR)
    have hdist : ∀ ps ns, (nodeAt a node).prev_sibling = some ps →
        (nodeAt a node).next_sibling = some ns → ps ≠ ns := by
      intro ps ns hpse hnse he
      subst he
      exact hdisj (hpsL ps hpse) (List.mem_cons_of_mem _ (hnsR ps hnse))
    obtain ⟨hlen, hvnode, hvp, hvps, hvns, hvoth⟩ :=
      mmd_remove_view a node p hpar hplen hn hnp hps hns hdist
    have hpar2 : ∀ j, j ≠ node →
        (nodeAt (mmd_remove a node) j).parent = (nodeAt a j).parent := by
      intro j hj
      by_cases hjp : j = p
      · subst hjp; rw [hvp]
      · by_cases hjps : (nodeAt a node).prev_sibling = some j
        · rw [hvps j hjps]
        · by_cases hjns : (nodeAt a node).next_sibling = some j
          · rw [hvns j hjns]
          · rw [hvoth j hj hjp hjps hjns]
    have hfields : ∀ j, j ≠ node →
        (nodeAt (mmd_remove a node) j).parent = (nodeAt a j).parent ∧
        (nodeAt (mmd_remove a node) j).prev_sibling =
          (if (nodeAt a node).next_sibling = some j then (nodeAt a node).prev_sibling
           else (nodeAt a j).prev_sibling) ∧
        (nodeAt (mmd_remove a node) j).next_sibling =
          (if (nodeAt a node).prev_sibling = some j then (nodeAt a node).next_sibling
           else (nodeAt a j).next_sibling) := by
      intro j hj
      refine ⟨hpar2 j hj, ?_, ?_⟩
      · by_cases hjns : (nodeAt a node).next_sibling = some j
        · rw [if_pos hjns, hvns j hjns]
        · rw [if_neg hjns]
          by_cases hjp : j = p
          · subst hjp; rw [hvp]
          · by_cases hjps : (nodeAt a node).prev_sibling = some j
            · rw [hvps j hjps]
            · rw [hvoth j hj hjp hjps hjns]
      · by_cases hjps : (nodeAt a node).prev_sibling = some j
        · rw [if_pos hjps, hvps j hjps]
        · rw [if_neg hjps]
          by_cases hjp : j = p
          · subst hjp; rw [hvp]
          · by_cases hjns : (nodeAt a node).next_sibling = some j
            · rw [hvns j hjns]
            · rw [hvoth j hj hjp hjps hjns]
    have hlast2 : ∀ j, j ≠ p →
        (nodeAt (mmd_remove a node) j).last_child = (nodeAt a j).last_child := by
      intro j hjp
      by_cases hjn : j = node
      · subst hjn; rw [hvnode]
      · by_cases hjps : (nodeAt a node).prev_sibling = some j
        · rw [hvps j hjps]
        · by_cases hjns : (nodeAt a node).next_sibling = some j
          · rw [hvns j hjns]
          · rw [hvoth j hjn hjp hjps hjns]
    have hfirst2 : ∀ j, j ≠ p →
        (nodeAt (mmd_remove a node) j).first_child = (nodeAt a j).first_child := by
      intro j hjp
      by_cases hjn : j = node
      · subst hjn; rw [hvnode]
      · by_cases hjps : (nodeAt a node).prev_sibling = some j
        · rw [hvps j hjps]
        · by_cases hjns : (nodeAt a node).next_sibling = some j
          · rw [hvns j hjns]
          · rw [hvoth j hjn hjp hjps hjns]
    refine ⟨⟨fun i => if i = p then L ++ R else kids i, ?_, ?_, ?_, ?_, ?_, ?_, ?_⟩,
      by rw [hvnode], by rw [hvnode], by rw [hvnode]⟩
    · intro i j
      rw [hlen]
      by_cases hip : p = i
      · subst hip
        simp only [if_pos rfl, ite_true, List.mem_append]
        constructor
        · rintro (hjL | hjR)
          · have hjk := hLkids j hjL
            have hjn : j ≠ node := fun he => hnodL (he ▸ hjL)
            exact ⟨hmemlt p j hjk, by rw [hpar2 j hjn]; exact hmempar p j hjk⟩
          · have hjk := hRkids j hjR
            have hjn : j ≠ node := fun he => hnodR (he ▸ hjR)
            exact ⟨hmemlt p j hjk, by rw [hpar2 j hjn]; exact hmempar p j hjk⟩
        · rintro ⟨hjlt, hjpar⟩
          by_cases hjn : j = node
          · subst hjn
            rw [hvnode] at hjpar
            exact Option.noConfusion hjpar
          · rw [hpar2 j hjn] at hjpar
            have hjk : j ∈ kids p := (inv.mem p j).mpr ⟨hjlt, hjpar⟩
            rw [hsplit] at hjk
            rcases List.mem_append.mp hjk with hjL | hjR2
            · exact Or.inl hjL
            · rcases List.mem_cons.mp hjR2 with he | hjR
              · exact absurd he hjn
              · exact Or.inr hjR
      · have hip2 : ¬ i = p := fun he => hip he.symm
        simp only [if_neg hip2]
        constructor
        · intro hjk
          have hjn : j ≠ node := by
            intro he
            have h2 := hmempar i j hjk
            rw [he, hpar] at h2
            exact hip (Option.some.inj h2)
          exact ⟨hmemlt i j hjk, by rw [hpar2 j hjn]; exact hmempar i j hjk⟩
        · rintro ⟨hjlt, hjpar⟩
          by_cases hjn : j = node
          · subst hjn
            rw [hvnode] at hjpar
            exact Option.noConfusion hjpar
          · rw [hpar2 j hjn] at hjpar
            exact (inv.mem i j).mpr ⟨hjlt, hjpar⟩
    · intro i
      by_cases hip : p = i
      · subst hip
        simp only [if_pos rfl, ite_true]
        exact List.Nodup.sublist (List.Sublist.append_left (List.sublist_cons_self node R) L) hnd
      · have hip2 : ¬ i = p := fun he => hip he.symm
        simp only [if_neg hip2]
        exact inv.nodup i
    · intro i
      by_cases hip : p = i
      · subst hip
        simp only [if_pos rfl, ite_true, List.mem_append]
        rintro (h | h)
        · exact inv.noSelf p (hLkids p h)
        · exact inv.noSelf p (hRkids p h)
      · have hip2 : ¬ i = p := fun he => hip he.symm
        simp only [if_neg hip2]
        exact inv.noSelf i
    · intro i hi
      rw [hlen] at hi
      by_cases hip : p = i
      · subst hip
        simp only [if_pos rfl, ite_true]
        rw [hvp]
        show (if (nodeAt a node).next_sibling = none then (nodeAt a node).prev_sibling
          else (nodeAt a p).last_child) = (L ++ R).getLast?
        cases R with
        | nil =>
          have hnn : (nodeAt a node).next_sibling = none := by rw [hnext]; rfl
          rw [if_pos hnn]
          rcases hprevv with ⟨hL, hpn2⟩ | ⟨q, hq, hp2⟩
          · subst hL
            rw [hpn2]
            rfl
          · rw [hp2, List.append_nil]
            exact hq.symm
        | cons r R2 =>
          have hnn : (nodeAt a node).next_sibling = some r := by rw [hnext]; rfl
          have hnnn : (nodeAt a node).next_sibling ≠ none := by rw [hnn]; simp
          rw [if_neg hnnn, inv.lastC p hplen, hsplit,
            List.getLast?_append_cons, List.getLast?_append_cons, List.getLast?_cons_cons]
      · have hip2 : ¬ i = p := fun he => hip he.symm
        simp only [if_neg hip2]
        rw [hlast2 i hip2]
        exact inv.lastC i hi
    · intro i hi
      rw [hlen] at hi
      by_cases hip : p = i
      · subst hip
        simp only [if_pos rfl, ite_true]
        have hspliced := chain_splice hfields L hch hnd (fun q hq => Option.noConfusion hq)
        have hfr : (nodeAt (mmd_remove a node) p).first_child =
            (if L = [] then (nodeAt a node).next_sibling else (nodeAt a p).first_child) := by
          rw [hvp]
          show (if (nodeAt a node).prev_sibling = none then (nodeAt a node).next_sibling
            else (nodeAt a p).first_child) = _
          rcases hprevv with ⟨hL, hpn2⟩ | ⟨q, hq, hp2⟩
          · rw [hpn2, if_pos rfl, if_pos hL]
          · have hLne : L ≠ [] := by
              intro he
              subst he
              simp at hq
            rw [hp2, if_neg (Option.some_ne_none q), if_neg hLne]
        rw [hfr]
        exact hspliced
      · have hip2 : ¬ i = p := fun he => hip he.symm
        simp only [if_neg hip2]
        rw [hfirst2 i hip2]
        refine chain_congr (inv.chain i hi) ?_
        intro j hj
        have hjn : j ≠ node := by
          intro he
          have h2 := hmempar i j hj
          rw [he, hpar] at h2
          exact hip (Option.some.inj h2)
        obtain ⟨hfp, hfpr, hfn⟩ := hfields j hjn
        refine ⟨hfp, ?_, ?_⟩
        · rw [hfpr]
          have hc1 : (nodeAt a node).next_sibling ≠ some j := by
            intro he
            have h2 := hmempar p j (hRkids j (hnsR j he))
            rw [hmempar i j hj] at h2
            exact hip (Option.some.inj h2).symm
          rw [if_neg hc1]
        · rw [hfn]
          have hc2 : (nodeAt a node).prev_sibling ≠ some j := by
            intro he
            have h2 := hmempar p j (hLkids j (hpsL j he))
            rw [hmempar i j hj] at h2
            exact hip (Option.some.inj h2).symm
          rw [if_neg hc2]
    · intro j hj i hjpar
      rw [hlen] at hj ⊢
      by_cases hjn : j = node
      · subst hjn
        rw [hvnode] at hjpar
        exact Option.noConfusion hjpar
      · rw [hpar2 j hjn] at hjpar
        exact inv.parentRange j hj i hjpar
    · intro j hj hjpar
      rw [hlen] at hj
      by_cases hjn : j = node
      · subst hjn
        rw [hvnode]
        exact ⟨rfl, rfl⟩
      · rw [hpar2 j hjn] at hjpar
        obtain ⟨h1, h2⟩ := inv.orphan j hj hjpar
        obtain ⟨hfp, hfpr, hfn⟩ := hfields j hjn
        have hc1 : (nodeAt a node).next_sibling ≠ some j := by
          intro he
          have h3 := hmempar p j (hRkids j (hnsR j he))
          rw [hjpar] at h3
          exact Option.noConfusion h3
        have hc2 : (nodeAt a node).prev_sibling ≠ some j := by
          intro he
          have h3 := hmempar p j (hLkids j (hpsL j he))
          rw [hjpar] at h3
          exact Option.noConfusion h3
        exact ⟨by rw [hfpr, if_neg hc1]; exact h1, by rw [hfn, if_neg hc2]; exact h2⟩

theorem c9Arena_consistent : Consistent c9Arena := by
  refine ⟨fun _ => [], ?_, ?_, ?_, ?_, ?_, ?_, ?_⟩
  · intro i j
    constructor
    · intro h
      cases h
    · rintro ⟨hj, hpar⟩
      have hj0 : j = 0 := by
        simp [c9Arena] at hj
        omega
      subst hj0
      simp [c9Arena, nodeAt] at hpar
  · intro i
    exact List.nodup_nil
  · intro i h
    cases h
  · intro i hi
    have hi0 : i = 0 := by
      simp [c9Arena] at hi
      exact hi
    subst hi0
    rfl
  · intro i hi
    have hi0 : i = 0 := by
      simp [c9Arena] at hi
      exact hi
    subst hi0
    exact Chain.nil _
  · intro j hj i hpar
    have hj0 : j = 0 := by
      simp [c9Arena] at hj
      exact hj
    subst hj0
    simp [c9Arena, nodeAt] at hpar
  · intro j hj hpar
    have hj0 : j = 0 := by
      simp [c9Arena] at hj
      exact hj
    subst hj0
    exact ⟨rfl, rfl⟩

/-- C9: the tree-link consistency invariant — every node's membership in a
    parent's child list agrees with its parent pointer, the sibling chain
    reached from each node's first-child pointer lists exactly its children
    with mutually inverse prev/next sibling links and ends at the node's
    last-child pointer — is preserved by `mmd_add`, which appends the new
    node as the parent's new last child, and by `mmd_remove`, which unlinks
    the node and nulls its parent and sibling pointers. -/
theorem tree_links_add_remove_consistent :
    (∀ (a : List MNode) (p : Nat) (ty : MType) (ws : Bool) (t u : Option String),
      Consistent a → p < a.length →
      Consistent (mmd_add a (some p) ty ws t u).1 ∧
      (nodeAt (mmd_add a (some p) ty ws t u).1 p).last_child = some a.length ∧
      (nodeAt (mmd_add a (some p) ty ws t u).1 a.length).parent = some p) ∧
    (∀ (a : List MNode) (node : Nat), Consistent a → node < a.length →
      Consistent (mmd_remove a node) ∧
      (nodeAt (mmd_remove a node) node).parent = none ∧
      (nodeAt (mmd_remove a node) node).prev_sibling = none ∧
      (nodeAt (mmd_remove a node) node).next_sibling = none) := by
  constructor
  · rintro a p ty ws t u ⟨kids, inv⟩ hp
    refine ⟨⟨_, consistent_add inv hp ty ws t u⟩, ?_, ?_⟩
    · exact (mmd_add_parent_spec a p ty ws t u hp).2.2.2
    · rw [(mmd_add_parent_spec a p ty ws t u hp).2.2.1]
  · rintro a node ⟨kids, inv⟩ hn
    exact consistent_remove inv hn

theorem tree_links_add_remove_consistent_witness :
    Consistent (mmd_add c9Arena (some 0) MType.PARAGRAPH false none none).1 ∧
    (nodeAt (mmd_add c9Arena (some 0) MType.PARAGRAPH false none none).1 0).last_child = some 1 ∧
    (nodeAt (mmd_add c9Arena (some 0) MType.PARAGRAPH false none none).1 1).parent = some 0 ∧
    Consistent (mmd_remove c9Arena 0) ∧
    (nodeAt (mmd_remove c9Arena 0) 0).parent = none ∧
    (nodeAt (mmd_remove c9Arena 0) 0).prev_sibling = none ∧
    (nodeAt (mmd_remove c9Arena 0) 0).next_sibling = none :=
  ⟨(tree_links_add_remove_consistent.1 c9Arena 0 MType.PARAGRAPH false none none
      c9Arena_consistent (by decide)).1,
   (tree_links_add_remove_consistent.1 c9Arena 0 MType.PARAGRAPH false none none
      c9Arena_consistent (by decide)).2.1,
   (tree_links_add_remove_consistent.1 c9Arena 0 MType.PARAGRAPH false none none
      c9Arena_consistent (by decide)).2.2,
   (tree_links_add_remove_consistent.2 c9Arena 0 c9Arena_consistent (by decide)).1,
   (tree_links_add_remove_consistent.2 c9Arena 0 c9Arena_consistent (by decide)).2.1,
   (tree_links_add_remove_consistent.2 c9Arena 0 c9Arena_consistent (by decide)).2.2.1,
   (tree_links_add_remove_consistent.2 c9Arena 0 c9Arena_consistent (by decide)).2.2.2⟩
